import Mathlib

/-!
Verification development for the badger-rs storage engine sources.

Byte streams are modelled as `List Nat` (each element a byte value; encoders
truncate with `% 256` exactly where the source casts to `u8`/`u16`/`u32`).
Machine-integer arithmetic is modelled on `Nat` with explicit modular
reduction at the points where the source narrows a value.
-/

/-! ## Byte-level primitives -/

/-- Big-endian 2-byte encoding, as written by `bytes::BufMut::put_u16`
(the value is a `u16` in the source; `% 256` per byte realises the
truncation of the `as u16` casts feeding it). -/
def be16 (n : Nat) : List Nat := [n / 256 % 256, n % 256]

/-- Big-endian 4-byte encoding, as written by `bytes::BufMut::put_u32`. -/
def be32 (n : Nat) : List Nat :=
  [n / 16777216 % 256, n / 65536 % 256, n / 256 % 256, n % 256]

/-- Big-endian 8-byte encoding, as written by `bytes::BufMut::put_u64`. -/
def be64 (n : Nat) : List Nat :=
  [n / 72057594037927936 % 256, n / 281474976710656 % 256,
   n / 1099511627776 % 256, n / 4294967296 % 256,
   n / 16777216 % 256, n / 65536 % 256, n / 256 % 256, n % 256]

/-- Big-endian read of the first two bytes of a slice, as performed by
`bytes::Buf::get_u16` on a `&[u8]`. Reading past the end of a slice is a
panic in the source; callers below only apply this in-bounds. -/
def be16get : List Nat → Nat
  | a :: b :: _ => 256 * a + b
  | _ => 0

/-- Big-endian read of the first four bytes of a slice, as performed by
`bytes::Buf::get_u32` on a `&[u8]`. -/
def be32get : List Nat → Nat
  | a :: b :: c :: d :: _ => 16777216 * a + 65536 * b + 256 * c + d
  | _ => 0

/-- One bit step of the reflected CRC-32 (IEEE) computation used by
`crc32fast::hash`. -/
def crc32Step (c : Nat) : Nat :=
  if c % 2 = 1 then (c / 2) ^^^ 0xEDB88320 else c / 2

/-- One byte step of the reflected CRC-32 computation. -/
def crc32Byte (c b : Nat) : Nat :=
  (List.range 8).foldl (fun acc _ => crc32Step acc) (c ^^^ b % 256)

/-- `crc32fast::hash`: the standard IEEE CRC-32 of a byte string. -/
def crc32 (data : List Nat) : Nat :=
  0xFFFFFFFF ^^^ data.foldl crc32Byte 0xFFFFFFFF

/-! ## Manifest (`src/manifest.rs`) -/

/-- `manifest_change::Operation` from the change-set payload. -/
inductive ManifestOp where
  | create
  | delete
deriving DecidableEq, Repr

/-- One `ManifestChange`: `{op, table id, level, key id, compression}`. -/
structure ManifestChange where
  op : ManifestOp
  id : Nat
  level : Nat
  keyId : Nat
  compression : Nat
deriving DecidableEq, Repr

/-- `TableManifest`: the per-table record held in `Manifest.tables`. -/
structure TableManifest where
  level : Nat
  keyid : Nat
  compression : Nat
deriving DecidableEq, Repr

/-- `Manifest`: `tables` is a `HashMap<SSTableId, TableManifest>` modelled as
an association list without duplicate keys (`apply_manifest_change` rejects a
duplicate create before inserting); `levels` is the `Vec<LevelManifest>` of
id sets, modelled as lists. -/
structure Manifest where
  levels : List (List Nat)
  tables : List (Nat × TableManifest)
  creations : Int
  deletions : Int
deriving DecidableEq, Repr

/-- `Manifest::default()`. -/
def Manifest.empty : Manifest := ⟨[], [], 0, 0⟩

/-- Association-list lookup, the model of `HashMap::get`. -/
def assocGet (id : Nat) : List (Nat × TableManifest) → Option TableManifest
  | [] => none
  | (k, v) :: rest => if k = id then some v else assocGet id rest

/-- Association-list removal, the model of `HashMap::remove`. -/
def assocRemove (id : Nat) : List (Nat × TableManifest) → List (Nat × TableManifest)
  | [] => []
  | (k, v) :: rest => if k = id then rest else (k, v) :: assocRemove id rest

/-- Replace index `i` of a list of level sets with `f` applied to it
(model of `self.levels[i]` indexing; out-of-range indexing is a panic in
the source, here modelled by leaving the list unchanged — the theorems
below only index in bounds). -/
def modifyLevel (ls : List (List Nat)) (i : Nat) (f : List Nat → List Nat) :
    List (List Nat) :=
  ls.set i (f (ls.getD i []))

/-- Errors surfaced by manifest replay (`anyhow` errors in the source). -/
inductive ReplayError where
  | badMagic
  | unsupportedVersion (v : Nat)
  | extMismatch (expected present : Nat)
  | bufferTooLarge
  | checksumMismatch
  | decodeFailed
  | tableExists (id : Nat)
  | tableMissing (id : Nat)
  | levelOutOfRange
deriving DecidableEq, Repr

/-- `Manifest::apply_manifest_change` (manifest.rs:252-282). A create of a
table that exists, or a delete of one that does not, is an error. The source
grows `levels` by at most one entry (`if self.levels.len() <= change.level`
pushes a single default level) and then indexes `levels[change.level]`,
which panics when the level skips ahead by more than one; the panic is
modelled as the `levelOutOfRange` error. -/
def applyManifestChange (m : Manifest) (c : ManifestChange) :
    Except ReplayError Manifest :=
  match c.op with
  | .create =>
    if (assocGet c.id m.tables).isSome then
      .error (.tableExists c.id)
    else
      let tables := m.tables ++ [(c.id, ⟨c.level, c.keyId, c.compression⟩)]
      let levels := if m.levels.length ≤ c.level then m.levels ++ [[]] else m.levels
      if c.level < levels.length then
        .ok { levels := modifyLevel levels c.level (fun s => s ++ [c.id]),
              tables, creations := m.creations + 1, deletions := m.deletions }
      else
        .error .levelOutOfRange
  | .delete =>
    if (assocGet c.id m.tables).isNone then
      .error (.tableMissing c.id)
    else
      if c.level < m.levels.length then
        .ok { levels := modifyLevel m.levels c.level (fun s => s.filter (· ≠ c.id)),
              tables := assocRemove c.id m.tables,
              creations := m.creations, deletions := m.deletions + 1 }
      else
        .error .levelOutOfRange

/-- `Manifest::apply_change_set`: fold `apply_manifest_change` over the
changes, stopping at the first error. -/
def applyChangeSet (m : Manifest) : List ManifestChange → Except ReplayError Manifest
  | [] => .ok m
  | c :: cs => do applyChangeSet (← applyManifestChange m c) cs

/-- Modelled from the spec: serialization of one change of a change-set
payload (the prost-generated `ManifestChangeSet` codec is not under src/;
the spec gives the payload as "a serialized change-set (ordered list of
create/delete operations with table_id, level, key_id, compression)").
Encoded as an op byte followed by the four fields fixed-width. -/
def encodeChange (c : ManifestChange) : List Nat :=
  (match c.op with | .create => [0] | .delete => [1]) ++
    be64 c.id ++ be32 c.level ++ be64 c.keyId ++ be32 c.compression

/-- Modelled from the spec: serialization of a `ManifestChangeSet` payload
(count-prefixed list of encoded changes). -/
def encodeChangeSet (cs : List ManifestChange) : List Nat :=
  be32 cs.length ++ cs.flatMap encodeChange

/-- Modelled from the spec: decoder for one encoded change. -/
def decodeChange (bs : List Nat) : Option (ManifestChange × List Nat) :=
  match bs with
  | opb :: rest =>
    if rest.length < 24 then none
    else
      let op : Option ManifestOp :=
        if opb = 0 then some .create else if opb = 1 then some .delete else none
      match op with
      | none => none
      | some op =>
        some (⟨op, be64Int (rest.take 8), be32get (rest.drop 8),
               be64Int ((rest.drop 12).take 8), be32get (rest.drop 20)⟩,
              rest.drop 24)
  | [] => none
where
  /-- Big-endian read of eight bytes. -/
  be64Int (l : List Nat) : Nat :=
    l.foldl (fun acc b => acc * 256 + b) 0

/-- Modelled from the spec: decoder for a `ManifestChangeSet` payload,
the counterpart of `encodeChangeSet`. Fails unless the payload parses
exactly. -/
def decodeChangeSet (bs : List Nat) : Option (List ManifestChange) :=
  if h : bs.length < 4 then none
  else
    go (be32get (bs.take 4)) (bs.drop 4)
where
  go : Nat → List Nat → Option (List ManifestChange)
    | 0, [] => some []
    | 0, _ :: _ => none
    | n + 1, bs =>
      match decodeChange bs with
      | none => none
      | some (c, rest) => (go n rest).map (c :: ·)

/-- The record-replay loop of `replay_manifest_file` (manifest.rs:191-229):
repeatedly read a `{length:u32, crc:u32}` header and a payload of `length`
bytes. A short read of either (fewer bytes remaining than requested) is the
`UnexpectedEof` break, returning the manifest accumulated so far together
with the offset of the end of the last fully applied record. A declared
length reaching past the file size (measured from the offset of this
record's header) is the "buffer len too greater" corruption error, and a
CRC-32 mismatch the "checksum mismatch" error. -/
def replayRecordsGo (fpSize : Nat) :
    Nat → Nat → List Nat → Manifest → Except ReplayError (Manifest × Nat)
  | 0, offset, _, m => .ok (m, offset)
  | fuel + 1, offset, stream, m =>
    if stream.length < 8 then .ok (m, offset)
    else
      let changeLen := be32get (stream.take 4)
      let crc := be32get ((stream.drop 4).take 4)
      if offset + changeLen > fpSize then .error .bufferTooLarge
      else
        let rest := stream.drop 8
        if rest.length < changeLen then .ok (m, offset)
        else
          let payload := rest.take changeLen
          if crc32 payload ≠ crc then .error .checksumMismatch
          else
            match decodeChangeSet payload with
            | none => .error .decodeFailed
            | some cs =>
              match applyChangeSet m cs with
              | .error e => .error e
              | .ok m' =>
                replayRecordsGo fpSize fuel (offset + (8 + changeLen))
                  (rest.drop changeLen) m'

/-- The loop of the previous definition is driven by the stream: every
iteration consumes at least the 8 header bytes, so `stream.length + 1`
units of structural fuel are never exhausted (the 0-fuel branch is
unreachable from here). -/
def replayRecords (offset fpSize : Nat) (stream : List Nat) (m : Manifest) :
    Except ReplayError (Manifest × Nat) :=
  replayRecordsGo fpSize (stream.length + 1) offset stream m

/-- `MAGIC_TEXT`: the bytes `b"Bdgr"`. -/
def MAGIC_TEXT : List Nat := [0x42, 0x64, 0x67, 0x72]

/-- `BADGER_MAGIC_VERSION`. -/
def BADGER_MAGIC_VERSION : Nat := 8

/-- `replay_manifest_file` (manifest.rs:165-230). The first `read` fills an
8-byte zero-initialised buffer with up to 8 bytes of the file. The source
then evaluates `magic_buf.as_ref().get_u16()` twice: each call reborrows a
fresh temporary slice of the whole buffer, so BOTH `ext_version` and
`version` are read from bytes 0..2 of the buffer (never from bytes 4..6 and
6..8) — the model reproduces this faithfully with `be16get magicBuf` twice. -/
def replayManifestFile (file : List Nat) (extMagic : Nat) :
    Except ReplayError (Manifest × Nat) :=
  let magicBuf := file.take 8 ++ List.replicate (8 - file.length) 0
  let offset := min 8 file.length
  if magicBuf.take 4 ≠ MAGIC_TEXT then .error .badMagic
  else
    let extVersion := be16get magicBuf
    let version := be16get magicBuf
    if version ≠ BADGER_MAGIC_VERSION then .error (.unsupportedVersion version)
    else if extVersion ≠ extMagic then .error (.extMismatch extMagic extVersion)
    else replayRecords offset file.length (file.drop 8) Manifest.empty

/-- The `{magic, external version, badger version}` header written by
`ManifestConfig::help_rewrite` (manifest.rs:130-133). -/
def helpRewriteHeader (ext : Nat) : List Nat :=
  MAGIC_TEXT ++ be16 ext ++ be16 BADGER_MAGIC_VERSION

/-- Framing of one record of the manifest record stream, as written by
`help_rewrite` (manifest.rs:140-145): `{payload length:u32, crc32:u32}`
followed by the payload. -/
def encodeRecord (payload : List Nat) : List Nat :=
  be32 payload.length ++ be32 (crc32 payload) ++ payload

/-! ## Oracle (`src/txn/oracle.rs`) -/

/-- `TxnConfig` (txn module; only the two flags read by the oracle). -/
structure TxnConfig where
  detectConflicts : Bool
  managedTxns : Bool
deriving DecidableEq, Repr

/-- `CommittedTxn`: a commit timestamp plus the committing transaction's
conflict-key hash set (`HashSet<u64>` modelled as a list). -/
structure CommittedTxn where
  ts : Nat
  conflictKeys : List Nat
deriving DecidableEq, Repr

/-- `OracleInner` (oracle.rs:34-39). -/
structure OracleInner where
  nextTxnTs : Nat
  discardTs : Nat
  lastCleanupTs : Nat
  committedTxns : List CommittedTxn
deriving DecidableEq, Repr

/-- The fields of `Txn` consumed by `Oracle::get_latest_commit_ts`
(the `Txn` type itself lives in the txn module, not under src/): the read
snapshot, the managed-mode commit timestamp, the hashes of keys read
(`read_key_hash`) and the hashes of keys written (`conflict_keys`). -/
structure Txn where
  readTs : Nat
  commitTs : Nat
  readKeyHash : List Nat
  conflictKeys : List Nat
deriving DecidableEq, Repr

/-- `Oracle::cleanup_committed_txns` (oracle.rs:127-148). `readMarkDoneUntil`
stands for `self.read_mark.done_until()` (the watermark lives outside src/). -/
def cleanupCommittedTxns (config : TxnConfig) (readMarkDoneUntil : Nat)
    (inner : OracleInner) : OracleInner :=
  if ¬config.detectConflicts then inner
  else
    let maxReadTx := if config.managedTxns then inner.discardTs else readMarkDoneUntil
    if maxReadTx = inner.lastCleanupTs then inner
    else
      { inner with
        lastCleanupTs := maxReadTx,
        committedTxns := inner.committedTxns.filter (fun t => maxReadTx < t.ts) }

/-- `Oracle::get_latest_commit_ts` (oracle.rs:83-125) as a pure state
transformer over `OracleInner`. The conflict scan iterates the committed
transactions and bails with `DBError::Conflict` (here `Except.error ()`)
on the first committed transaction with `ts > txn.read_ts` sharing a key
hash with `txn.read_key_hash`. In the non-managed branch the next
timestamp is allocated and `next_txn_ts` advanced; the `committed_txns`
push is gated — exactly as in the source — on `config.managed_txns`.
(The `done_read`/`txn_mark.begin` watermark calls mutate state outside
`OracleInner` and cannot fail in-memory; they are not part of this model.) -/
def getLatestCommitTs (config : TxnConfig) (readMarkDoneUntil : Nat)
    (inner : OracleInner) (txn : Txn) : Except Unit (Nat × OracleInner) :=
  if txn.readKeyHash.length ≠ 0 ∧
      inner.committedTxns.any (fun c =>
        txn.readTs < c.ts ∧ txn.readKeyHash.any (fun h => c.conflictKeys.contains h))
  then .error ()
  else
    let (commitTs, inner) :=
      if ¬config.managedTxns then
        let inner := cleanupCommittedTxns config readMarkDoneUntil inner
        let txnTs := inner.nextTxnTs
        (txnTs, { inner with nextTxnTs := txnTs + 1 })
      else
        (txn.commitTs, inner)
    let inner :=
      if config.managedTxns then
        { inner with committedTxns := inner.committedTxns ++ [⟨commitTs, txn.conflictKeys⟩] }
      else inner
    .ok (commitTs, inner)

/-! ## Value-log entry header (`src/vlog/header.rs`) -/

/-- `EntryHeader` of the value log / WAL record format. -/
structure VlogEntryHeader where
  keyLen : Nat
  valueLen : Nat
  expiresAt : Nat
  meta : Nat
  userMeta : Nat
deriving DecidableEq, Repr

/-- Unsigned LEB128 decoding as done by the `integer_encoding` crate's
`decode_var` / `read_varint`: returns the decoded value and the number of
bytes consumed, or `none` when the input ends before a terminating byte. -/
def varintDecode : List Nat → Option (Nat × Nat)
  | [] => none
  | b :: rest =>
    if b % 256 < 128 then some (b % 256, 1)
    else
      match varintDecode rest with
      | none => none
      | some (v, c) => some (v * 128 + b % 128, c + 1)

/-- Unsigned LEB128 encoding (`encode_var_vec`); structural recursion on a
fuel bound (`n` itself bounds the digit count, so the fuel never runs out
and the 0-fuel base case coincides with the `n < 128` case). -/
def varintEncodeAux : Nat → Nat → List Nat
  | 0, n => [n % 128]
  | fuel + 1, n => if n < 128 then [n] else (n % 128 + 128) :: varintEncodeAux fuel (n / 128)

/-- Unsigned LEB128 encoding (`encode_var_vec`). -/
def varintEncode (n : Nat) : List Nat := varintEncodeAux n n

/-- `EntryHeader::decode` (header.rs:39-62): slice decoder. Reads the meta
byte, the user-meta byte, then three varints, returning the header and the
number of bytes consumed. The source panics (`unwrap` / out-of-bounds
`get_u8`) on truncated input; that is modelled as `none`. -/
def vlogHeaderDecode (buf : List Nat) : Option (VlogEntryHeader × Nat) :=
  match buf with
  | meta :: userMeta :: rest => do
    let (keyLen, c1) ← varintDecode rest
    let (valueLen, c2) ← varintDecode (rest.drop c1)
    let (expiresAt, c3) ← varintDecode ((rest.drop c1).drop c2)
    pure (⟨keyLen, valueLen, expiresAt, meta, userMeta⟩, 2 + c1 + c2 + c3)
  | _ => none

/-- `EntryHeader::decode_from` (header.rs:63-81): streaming decoder. The
source declares `let meta: u8 = 0;` and then calls
`reader.read_exact(&mut [meta])?` — the argument is a fresh temporary
one-byte array holding a COPY of `meta`, so the byte read from the stream
lands in the discarded temporary and `meta` stays `0`; likewise for
`user_meta`. Two bytes are still consumed from the stream. The model
returns the header together with the unread remainder of the stream. -/
def vlogHeaderDecodeFrom (stream : List Nat) :
    Option (VlogEntryHeader × List Nat) :=
  match stream with
  | _b0 :: _b1 :: rest => do
    let meta : Nat := 0
    let userMeta : Nat := 0
    let (keyLen, c1) ← varintDecode rest
    let (valueLen, c2) ← varintDecode (rest.drop c1)
    let (expiresAt, c3) ← varintDecode ((rest.drop c1).drop c2)
    pure (⟨keyLen, valueLen, expiresAt, meta, userMeta⟩, ((rest.drop c1).drop c2).drop c3)
  | _ => none

/-! ## Versioned-key codec (util module, not under src/) -/

/-- Modelled from the spec: `key_with_ts` of the versioned-key codec
("appends a descending sort-order timestamp suffix to user keys") —
the user key followed by the big-endian bytes of `u64::MAX - ts`, so that
newer versions sort first. -/
def keyWithTs (userKey : List Nat) (ts : Nat) : List Nat :=
  userKey ++ be64 (18446744073709551615 - ts % 18446744073709551616)

/-- Modelled from the spec: `parse_key` of the versioned-key codec
("strips the timestamp suffix"): the key without its final 8 bytes. -/
def parseKey (keyTs : List Nat) : List Nat :=
  keyTs.take (keyTs.length - 8)

/-! ## Value-log write path (`src/vlog/write.rs`) -/

/-- `ValuePointer` `{file_id, len, offset}` (kv module, not under src/;
spec: "a reference into the Value Log"). `ValuePointer::default()` is the
all-zero pointer, which `is_empty` recognises. -/
structure ValuePointer where
  fid : Nat
  len : Nat
  offset : Nat
deriving DecidableEq, Repr

/-- `ValuePointer::default()`. -/
def ValuePointer.default : ValuePointer := ⟨0, 0, 0⟩

/-- The fields of `DecEntry` consumed by the value-log write path (the
entry type lives in the txn module, not under src/): user key, version
timestamp, value, metadata bytes, expiry, and the per-entry value
threshold recorded at write time. -/
structure DecEntry where
  key : List Nat
  ts : Nat
  value : List Nat
  meta : Nat
  userMeta : Nat
  expiresAt : Nat
  valueThreshold : Nat
deriving DecidableEq, Repr

/-- `entry.key_ts().get_bytes()`: the full versioned key bytes. -/
def DecEntry.keyTs (e : DecEntry) : List Nat := keyWithTs e.key e.ts

/-- Modelled from the spec: `DecEntry::try_set_value_threshold` (txn entry
module, not under src/; spec: "each entry uses the threshold in effect at
write time, recorded per-entry, not recomputed later") — the adaptive
threshold is recorded on the entry only if none was recorded yet. -/
def DecEntry.trySetValueThreshold (e : DecEntry) (t : Nat) : DecEntry :=
  if e.valueThreshold = 0 then { e with valueThreshold := t } else e

/-- `BIT_TXN` and `BIT_FIN_TXN` (vlog module constants, not under src/;
upstream badger meta bits 6 and 7). `clean_meta_bit(BIT_TXN | BIT_FIN_TXN)`
clears bits 6 and 7 of the meta byte, i.e. reduces it mod 64 for a byte
value. -/
def cleanTxnBits (meta : Nat) : Nat := meta % 256 % 64

/-- `EntryHeader::new(&entry)` followed by `encode()` (header.rs:18-38):
`[meta, user_meta]` then varints of key length (of the full versioned
key), value length and expiry. -/
def vlogHeaderEncode (meta userMeta keyLen valueLen expiresAt : Nat) : List Nat :=
  [meta % 256, userMeta % 256] ++ varintEncode keyLen ++
    varintEncode valueLen ++ varintEncode expiresAt

/-- `LogFile::encode_entry` (vlog/write.rs:121-141), with no cipher
configured (`try_encrypt` returns `None` and the key+value bytes are
written in the clear): the record bytes `{header, key_ts ++ value, crc32}`
and the returned record length. The caller has already cleared the
transaction meta bits for the duration of the encode. -/
def encodeEntry (e : DecEntry) : List Nat × Nat :=
  let headerEncode := vlogHeaderEncode (cleanTxnBits e.meta) e.userMeta
    e.keyTs.length e.value.length e.expiresAt
  let kvBuf := e.keyTs ++ e.value
  let crc := crc32 (headerEncode ++ kvBuf)
  (headerEncode ++ kvBuf ++ be32 crc, headerEncode.length + kvBuf.length + 4)

/-- `MAX_HEADER_SIZE` (header.rs:16). -/
def MAX_HEADER_SIZE : Nat := 22

/-- Modelled from the spec: `MAX_VLOG_FILE_SIZE` (vlog module constant, not
under src/; the "hard maximum segment size", `u32::MAX` upstream). -/
def MAX_VLOG_FILE_SIZE : Nat := 4294967295

/-- `ValueLog::validate_write` (vlog/write.rs:83-110): walk the requests,
summing a worst-case record size per entry; fail when the estimated
post-write offset passes the hard maximum, and simulate a rollover to
offset 0 when it reaches the configured segment size. -/
def validateWrite (vlogFileSize : Nat) (vlogOffset : Nat)
    (reqs : List (List DecEntry)) : Except Unit Unit :=
  match reqs with
  | [] => .ok ()
  | req :: rest =>
    let size := req.foldl
      (fun acc e => acc + (MAX_HEADER_SIZE + e.key.length + 8 + e.value.length + 4)) 0
    let estimate := vlogOffset + size
    if estimate > MAX_VLOG_FILE_SIZE then .error ()
    else if estimate ≥ vlogFileSize then validateWrite vlogFileSize 0 rest
    else validateWrite vlogFileSize estimate rest

/-- The per-request entry loop of `ValueLog::write` (vlog/write.rs:53-79).
For each entry: the scratch buffer is cleared, the adaptive threshold is
recorded on the entry, and (a) a value shorter than the entry's threshold
resets the pointer to the default — the value stays inline; (b) otherwise
the record is encoded into the scratch buffer at `offset =
self.writable_log_offset()` and the pointer set to `{fid, len, offset}`.
The source never flushes the scratch buffer to the log file (the local
`write` closure at vlog/write.rs:47-52 is an empty stub and is never
called) and never advances `writable_log_offset`, so every out-of-line
entry of the batch receives the same `offset` and nothing is appended to
the segment; the model threads `offset` and the segment bytes explicitly
to exhibit exactly that. -/
def vlogWriteEntries (fid threshold offset : Nat) :
    List DecEntry → List ValuePointer
  | [] => []
  | e :: rest =>
    let e := e.trySetValueThreshold threshold
    if e.value.length < e.valueThreshold then
      ValuePointer.default :: vlogWriteEntries fid threshold offset rest
    else
      let len := (encodeEntry e).2
      ⟨fid, len, offset⟩ :: vlogWriteEntries fid threshold offset rest

/-- `ValueLog::write` (vlog/write.rs:39-82): validate, then run the entry
loop over every request. Returns the pointer assignments and the (final)
bytes of the active log segment — which the source leaves untouched. -/
def vlogWrite (fid vlogFileSize threshold offset : Nat)
    (segment : List Nat) (reqs : List (List DecEntry)) :
    Except Unit (List (List ValuePointer) × List Nat) := do
  let _ ← validateWrite vlogFileSize offset reqs
  .ok (reqs.map (vlogWriteEntries fid threshold offset), segment)

/-! ## Arena (`src/skl/arena.rs`) -/

/-- `std::alloc::Layout`: a size and a power-of-two alignment. -/
structure Layout where
  size : Nat
  align : Nat
deriving DecidableEq, Repr

/-- `DEFAULT_ALIGN` (arena.rs:16). -/
def DEFAULT_ALIGN : Nat := 8

/-- `Arena::round_up_to` (arena.rs:143-147): round `n` up to a multiple of
the power-of-two `divisor` (`(n + d - 1) & !(d - 1)`, which for a power of
two equals rounding up by division). -/
def roundUpTo (n divisor : Nat) : Nat :=
  (n + divisor - 1) / divisor * divisor

/-- The arena's allocation-relevant state: the fixed `[start, end_)` byte
range obtained at construction and the atomically advanced bump cursor
`ptr`, all modelled as addresses. -/
structure Arena where
  start : Nat
  end_ : Nat
  ptr : Nat
deriving DecidableEq, Repr

/-- `Arena::alloc_layout` (arena.rs:90-113): align the layout up to
`DEFAULT_ALIGN` (`layout.align_to(8)` keeps the larger of the two
alignments), round the size up to that alignment, advance the cursor by
`fetch_ptr_add` (which happens unconditionally, before the bounds check),
and panic — modelled as `Except.error` — when the advanced cursor passes
the arena's end; otherwise return the old cursor as the allocation's
address. The arena bounds are never changed. -/
def allocLayout (a : Arena) (layout : Layout) : Except Unit (Nat × Arena) :=
  let align := max layout.align DEFAULT_ALIGN
  let allocSize := roundUpTo layout.size align
  let oldPtr := a.ptr
  let a' := { a with ptr := a.ptr + allocSize }
  let newPtr := oldPtr + allocSize
  if a.end_ < newPtr then .error () else .ok (oldPtr, a')

/-! ## Options validation (`src/db.rs`) -/

/-- `CompressionType` (options module; the source matches only on whether
it is `None`). -/
inductive CompressionType where
  | nofmt
  | snappy
  | zstd
deriving DecidableEq, Repr

/-- `MAX_VALUE_THRESHOLD` (default.rs:7). -/
def MAX_VALUE_THRESHOLD : Nat := 1048576

/-- Modelled from the spec: `SKL_MAX_NODE_SIZE` (skip-list node footprint;
the constant is declared in the skl module but its value is not under
src/). Its exact value only feeds the `max_batch_count` division. -/
def SKL_MAX_NODE_SIZE : Nat := 168

/-- The fields of `Options` read or written by `check_set_options`
(options module, not under src/). `vlog_percentile` is an `f64` compared
only against 0.0 and 1.0; it is modelled as a rational. `value_threshold`
is an `i64`. -/
structure Options where
  num_compactors : Nat
  memtable_size : Nat
  max_batch_size : Nat
  max_batch_count : Nat
  max_value_threshold : Nat
  vlog_percentile : ℚ
  value_threshold : Int
  valuelog_file_size : Nat
  read_only : Bool
  compactl0_on_close : Bool
  compression : CompressionType
  block_cache_size : Nat
deriving DecidableEq, Repr

/-- `Options::check_set_options` (db.rs:120-162), in source order: reject
exactly one compactor; derive `max_batch_size`, `max_batch_count` and
`max_value_threshold`; range-check `vlog_percentile`, `value_threshold`
and `valuelog_file_size`; clear `compactl0_on_close` in read-only mode;
and panic — modelled as an error — when compression is `None` while the
block cache size is 0 (`need_cache` is true exactly for
`CompressionType::None` in the source). The `log::set_max_level` call is
an ambient side effect with no bearing on the result. -/
def checkSetOptions (o : Options) : Except String Options :=
  if o.num_compactors = 1 then
    .error "Cannot have 1 compactor. Need at least 2"
  else
    let o := { o with max_batch_size := 15 * o.memtable_size / 100 }
    let o := { o with max_batch_count := o.max_batch_size / SKL_MAX_NODE_SIZE }
    let o := { o with max_value_threshold := min MAX_VALUE_THRESHOLD o.max_batch_size }
    if o.vlog_percentile < 0 ∨ 1 < o.vlog_percentile then
      .error "vlog_percentile must be within range of 0.0-1.0"
    else if (MAX_VALUE_THRESHOLD : Int) < o.value_threshold then
      .error "Invalid ValueThreshold"
    else if (o.max_batch_size : Int) < o.value_threshold then
      .error "Valuethreshold greater than max batch size"
    else if ¬(1048576 ≤ o.valuelog_file_size ∧ o.valuelog_file_size < 2147483648) then
      .error "ValuelogSize"
    else
      let o := if o.read_only then { o with compactl0_on_close := false } else o
      let needCache := o.compression = CompressionType.nofmt
      if needCache ∧ o.block_cache_size = 0 then
        .error "Block_Cache_Size should be set since compression are enabled"
      else
        .ok o

/-! ## Compaction splits (`src/level/levels.rs`) -/

/-- Modelled from the spec: `KeyRange` (level compaction module, not under
src/): "`[left, right]` VersionedKey bounds (possibly open/infinite)". -/
structure KeyRange where
  left : List Nat
  right : List Nat
  inf : Bool
deriving DecidableEq, Repr

/-- Modelled from the spec: `KeyRange::default()` — the empty range. -/
def KeyRange.default : KeyRange := ⟨[], [], false⟩

/-- Byte-string comparison of versioned keys (util `compare_key`, not under
src/), here plain lexicographic order on the byte lists. -/
def keyLtB : List Nat → List Nat → Bool
  | [], [] => false
  | [], _ :: _ => true
  | _ :: _, [] => false
  | a :: as_, b :: bs => if a < b then true else if b < a then false else keyLtB as_ bs

/-- Modelled from the spec: `KeyRange::extend_borrow` — widen a range to
cover another ("used to test overlap between table sets"): an empty range
is absorbed, otherwise the smaller left and larger right win and infinity
is sticky. -/
def KeyRange.extend (a b : KeyRange) : KeyRange :=
  if b = KeyRange.default then a
  else if a = KeyRange.default then b
  else
    { left := if keyLtB b.left a.left then b.left else a.left,
      right := if keyLtB a.right b.right then b.right else a.right,
      inf := a.inf || b.inf }

/-- The one field of a `Table` that `add_splits` consumes: its biggest
(versioned) key. -/
structure SplitTable where
  biggest : List Nat
deriving DecidableEq, Repr

/-- The body of the `for i in 0..bottom.len()` loop of
`LevelsController::add_splits` (levels.rs:920-932), with `fuel`
structurally counting the remaining iterations (`fuel = bottom.length - i`
at entry). At the last index the current range is pushed right-open
(`skr.right.clear()`) and the loop returns; at every index `i` with
`i % width == width - 1` the range is closed at
`key_with_ts(parse_key(bottom[i].biggest), 0)`, pushed, and the next range
starts at that same boundary. -/
def addSplitsGo (bottom : List SplitTable) (width : Nat) :
    Nat → Nat → KeyRange → List KeyRange → List KeyRange
  | 0, _, _, acc => acc
  | fuel + 1, i, skr, acc =>
    if i = bottom.length - 1 then
      acc ++ [{ skr with right := [] }]
    else if i % width = width - 1 then
      let boundary := keyWithTs (parseKey ((bottom.getD i ⟨[]⟩).biggest)) 0
      let pushed := { skr with right := boundary }
      addSplitsGo bottom width fuel (i + 1)
        { pushed with left := boundary } (acc ++ [pushed])
    else
      addSplitsGo bottom width fuel (i + 1) skr acc

/-- `LevelsController::add_splits` (levels.rs:913-933): the split list is
cleared, the group width is `max(3, ceil(bottom.len() / 5))` (the `f64`
ceiling of `len/5` is exact at these magnitudes and equals `(len + 4) / 5`),
the seed range is `this_range` extended by `next_range`, and the loop above
produces the splits. -/
def addSplits (thisRange nextRange : KeyRange) (bottom : List SplitTable) :
    List KeyRange :=
  let width := max ((bottom.length + 4) / 5) 3
  let skr := thisRange.extend nextRange
  addSplitsGo bottom width bottom.length 0 skr []

/-- The closed form the corrected split claim is stated against: given the
seed range and the list of internal boundaries, each internal boundary
closes the current sub-range and opens the next one at the same key, and
the final sub-range is right-open. -/
def splitsSpec : KeyRange → List (List Nat) → List KeyRange
  | skr, [] => [{ skr with right := [] }]
  | skr, b :: bs => { skr with right := b } :: splitsSpec { skr with left := b, right := b } bs

/-- The internal boundary keys of `add_splits`, scanned from index `i`
with `fuel` indices left to visit: the biggest keys (timestamp suffix 0)
of the bottom tables at the indices `width-1, 2*width-1, …` strictly
before the last index. -/
def internalBoundaries (bottom : List SplitTable) (width : Nat) :
    Nat → Nat → List (List Nat)
  | 0, _ => []
  | fuel + 1, i =>
    if i % width = width - 1 ∧ i < bottom.length - 1 then
      keyWithTs (parseKey ((bottom.getD i ⟨[]⟩).biggest)) 0 ::
        internalBoundaries bottom width fuel (i + 1)
    else
      internalBoundaries bottom width fuel (i + 1)

/-! ## Sorted-block builder (`src/table/write.rs`) and iterator
(`src/table/read.rs`) -/

/-- Modelled from the spec: `ValueMeta` (kv module, not under src/): "a
value plus metadata bits (tombstone flag, stored-in-value-log flag) and an
optional user-meta byte". -/
structure ValueMeta where
  meta : Nat
  userMeta : Nat
  value : List Nat
deriving DecidableEq, Repr

/-- Modelled from the spec: `ValueMeta::serialize` — the two metadata
bytes followed by the value bytes. -/
def ValueMeta.serialize (v : ValueMeta) : List Nat :=
  v.meta % 256 :: v.userMeta % 256 :: v.value

/-- Modelled from the spec: `ValueMeta::deserialize`, the counterpart of
`serialize`; `none` on an impossibly short slice. -/
def ValueMeta.deserialize : List Nat → Option ValueMeta
  | m :: u :: value => some ⟨m, u, value⟩
  | _ => none

/-- Modelled from the spec: `ValueMeta::encode_size` — the length of the
serialized form. -/
def ValueMeta.encodeSize (v : ValueMeta) : Nat := 2 + v.value.length

/-- `HEADER_SIZE` (table/write.rs:22): 4 bytes of `{overlap:u16, diff:u16}`. -/
def HEADER_SIZE : Nat := 4

/-- Modelled from the spec: `NONCE_SIZE` (key-registry module, not under
src/): the AEAD per-block nonce length, 12 bytes. -/
def NONCE_SIZE : Nat := 12

/-- The table `EntryHeader` (table/write.rs:16-20). -/
structure BlockEntryHeader where
  overlap : Nat
  diff : Nat
deriving DecidableEq, Repr

/-- `EntryHeader::default()`. -/
def BlockEntryHeader.default : BlockEntryHeader := ⟨0, 0⟩

/-- `EntryHeader::serialize` (table/write.rs:31-36): `put_u16 overlap`
then `put_u16 diff` (big-endian; `be16` realises the `as u16` cast). -/
def BlockEntryHeader.serialize (h : BlockEntryHeader) : List Nat :=
  be16 h.overlap ++ be16 h.diff

/-- `EntryHeader::deserialize` (table/write.rs:38-44): two consecutive
`get_u16` reads of an advancing slice. -/
def blockHeaderDeserialize (data : List Nat) : BlockEntryHeader :=
  ⟨be16get data, be16get (data.drop 2)⟩

/-- `BackendBlock::diff_base_key` (table/write.rs:93-103): the length of
the longest common prefix of the base key and the new key (the source loop
walks both up to the first mismatch). -/
def diffBaseKey : List Nat → List Nat → Nat
  | a :: as_, b :: bs => if a = b then diffBaseKey as_ bs + 1 else 0
  | _, _ => 0

/-- `BackendBlock` (table/write.rs:54-59). -/
structure BackendBlock where
  data : List Nat
  basekey : List Nat
  entryOffsets : List Nat
deriving DecidableEq, Repr

/-- A fresh `BackendBlock` (table/write.rs:60-68). -/
def BackendBlock.new : BackendBlock := ⟨[], [], []⟩

/-- `BackendBlock::push_entry` (table/write.rs:121-136): the first entry's
full key becomes the base key and its diff is the whole key; later entries
diff against the base key. The entry's offset (the data length before the
entry) is pushed, then header, diff bytes and serialized value are
appended. The source's overflow `assert!`s hold whenever the key fits a
u16, which the theorems assume. -/
def BackendBlock.pushEntry (b : BackendBlock) (keyTs : List Nat) (v : ValueMeta) :
    BackendBlock :=
  let diffKey := if b.basekey.length = 0 then keyTs
                 else keyTs.drop (diffBaseKey b.basekey keyTs)
  let basekey := if b.basekey.length = 0 then keyTs else b.basekey
  let header : BlockEntryHeader := ⟨keyTs.length - diffKey.length, diffKey.length⟩
  { data := b.data ++ header.serialize ++ diffKey ++ v.serialize,
    basekey,
    entryOffsets := b.entryOffsets ++ [b.data.length] }

/-- `BackendBlock::should_finish_block` (table/write.rs:104-119): false
while the block is empty; otherwise true exactly when the estimated size —
data so far, 6 bytes of per-entry overhead, the next key and serialized
value, the grown offset table with its length field, the checksum's sum64
and the checksum length field, plus a nonce when encrypting — exceeds the
configured block size. -/
def BackendBlock.shouldFinishBlock (b : BackendBlock) (keyTs : List Nat)
    (v : ValueMeta) (blockSize : Nat) (isEncrypt : Bool) : Bool :=
  if b.entryOffsets.length = 0 then false
  else
    let entriesOffsetsSize := (b.entryOffsets.length + 1) * 4 + 4 + 8 + 4
    let estimateSize := b.data.length + 6 + keyTs.length + v.encodeSize +
      entriesOffsetsSize + (if isEncrypt then NONCE_SIZE else 0)
    blockSize < estimateSize

/-- `vec_u32_to_bytes` (table module helper, not under src/): the offset
table serialized as consecutive `u32`s, big-endian as everywhere else in
this format. -/
def vecU32ToBytes (l : List Nat) : List Nat := l.flatMap be32

/-- Modelled from the spec: the serialized `Checksum` protobuf record
appended at the end of a block (`Checksum::new(algo, data)` then
`encode_to_vec`; the pb module is not under src/). Modelled as the 8-byte
big-endian sum of the block's CRC-32. -/
def checksumRecord (data : List Nat) : List Nat := be64 (crc32 data)

/-- `BackendBlock::finish_block` (table/write.rs:137-144): append the
offset table, the entry count (u32), the checksum record over everything
so far, and the checksum record's length (u32). -/
def BackendBlock.finishBlock (b : BackendBlock) : List Nat :=
  let data := b.data ++ vecU32ToBytes b.entryOffsets ++ be32 b.entryOffsets.length
  data ++ checksumRecord data ++ be32 (checksumRecord data).length

/-- The decoded `Block` as consumed by `SinkBlockIter` (table/read.rs):
raw bytes, the offset table, and the byte offset at which the entry data
ends and the offset table begins. -/
structure Block where
  data : List Nat
  entryOffsets : List Nat
  entriesIndexStart : Nat
deriving DecidableEq, Repr

/-- Modelled from the spec: the block decoder (table module, not under
src/; spec block layout `{entries…}{offset_table: u32 array}
{offset_count:u32}{checksum_record}{checksum_len:u32}`): strip the
checksum length and record from the tail, read the entry count, read that
many u32 offsets, and put the start of the offset table in
`entries_index_start`. -/
def blockDecode (raw : List Nat) : Option Block :=
  if raw.length < 4 then none
  else
    let checksumLen := be32get (raw.drop (raw.length - 4))
    if raw.length < 4 + checksumLen + 4 then none
    else
      let rest1 := raw.take (raw.length - 4 - checksumLen)
      let numEntries := be32get (rest1.drop (rest1.length - 4))
      let rest2 := rest1.take (rest1.length - 4)
      if rest2.length < 4 * numEntries then none
      else
        some { data := raw,
               entryOffsets := readU32s numEntries (rest2.drop (rest2.length - 4 * numEntries)),
               entriesIndexStart := rest2.length - 4 * numEntries }
where
  /-- Read `n` consecutive big-endian u32s. -/
  readU32s : Nat → List Nat → List Nat
    | 0, _ => []
    | n + 1, l => be32get l :: readU32s n (l.drop 4)

/-- `SinkBlockIter` (table/read.rs:144-154), forward-iteration fields plus
the backward index consulted by `next` (it stays `none` during a pure
forward scan). -/
structure SinkBlockIter where
  inner : Block
  baseKey : List Nat
  key : List Nat
  header : BlockEntryHeader
  entryIndex : Option Nat
  backEntryIndex : Option Nat
deriving DecidableEq, Repr

/-- `From<Block> for SinkBlockIter` (table/read.rs:155-168). -/
def SinkBlockIter.fromBlock (b : Block) : SinkBlockIter :=
  ⟨b, [], [], BlockEntryHeader.default, none, none⟩

/-- `SinkIterator::next for SinkBlockIter` (table/read.rs:188-238).
On the first call the base key and first header are latched from entry 0
(`base_key = data[4 .. 4+diff]`, the full first key) and the iterator key
becomes the base key. On a later call at entry `id`, after the
double-ended and end-of-block checks, the key is rebuilt from the shared
prefix with the previous entry (via the base key) plus the stored diff
bytes of entry `id+1`. Returns whether the iterator advanced, and the new
state. Slice accesses are in bounds whenever the block was built by
`push_entry`/`finish_block`, which is what the theorems consume. -/
def SinkBlockIter.next (it : SinkBlockIter) : Bool × SinkBlockIter :=
  match it.entryIndex with
  | some id =>
    let stop : Bool :=
      match it.backEntryIndex with
      | some backId => id + 1 == backId
      | none => id == it.inner.entryOffsets.length - 1
    if stop then (false, it)
    else
      let nextEntryOffset := it.inner.entryOffsets.getD (id + 1) 0
      let data := it.inner.data.drop nextEntryOffset
      let nextHeader := blockHeaderDeserialize (data.take HEADER_SIZE)
      let prevOverlap := it.header.overlap
      let nextOverlap := nextHeader.overlap
      let key :=
        if prevOverlap < nextOverlap then
          it.key.take prevOverlap ++
            ((it.baseKey.drop prevOverlap).take (nextOverlap - prevOverlap))
        else
          it.key.take nextOverlap
      let key := key ++ ((data.drop HEADER_SIZE).take nextHeader.diff)
      (true, { it with entryIndex := some (id + 1), key, header := nextHeader })
  | none =>
    if it.inner.entryOffsets.length = 0 then (false, it)
    else
      let it :=
        if it.baseKey.length = 0 then
          let header := blockHeaderDeserialize (it.inner.data.take HEADER_SIZE)
          { it with
            baseKey := (it.inner.data.drop HEADER_SIZE).take header.diff,
            header }
        else it
      (true, { it with key := it.baseKey, entryIndex := some 0 })

/-- `KvSinkIter::value for SinkBlockIter` (table/read.rs:312-326): the
value bytes run from the current entry's offset past its header and diff
bytes up to the next entry's offset (or `entries_index_start` for the last
entry), and are deserialized as a `ValueMeta`. -/
def SinkBlockIter.value (it : SinkBlockIter) : Option ValueMeta :=
  match it.entryIndex with
  | some entryId =>
    let nextEntryId := entryId + 1
    let endOffset :=
      if nextEntryId = it.inner.entryOffsets.length then it.inner.entriesIndexStart
      else it.inner.entryOffsets.getD nextEntryId 0
    let startOffset := it.inner.entryOffsets.getD entryId 0 + HEADER_SIZE + it.header.diff
    ValueMeta.deserialize ((it.inner.data.drop startOffset).take (endOffset - startOffset))
  | none => none

/-- Drive the iterator forward up to `fuel` steps, collecting
`(key, value())` after every successful `next`. -/
def SinkBlockIter.collect (it : SinkBlockIter) :
    Nat → List (List Nat × Option ValueMeta)
  | 0 => []
  | fuel + 1 =>
    let (ok, it') := it.next
    if ok then (it'.key, it'.value) :: it'.collect fuel else []

/-- Build a `BackendBlock` from a sequence of entries by pushing each in
order (the `push_internal` loop with a block size large enough that the
block is never closed early). -/
def buildBackendBlock (entries : List (List Nat × ValueMeta)) : BackendBlock :=
  entries.foldl (fun b e => b.pushEntry e.1 e.2) BackendBlock.new

/-- Whole pipeline for a single block: push every entry, close the block,
decode it back. -/
def buildBlock (entries : List (List Nat × ValueMeta)) : Option Block :=
  blockDecode (buildBackendBlock entries).finishBlock

/-! ## Auxiliary closed forms used to state and prove the theorems -/

/-- The bytes `push_entry` appends for one entry: header (overlap, diff),
diff bytes, serialized value. With `base = []` this is the first entry's
encoding (overlap 0, diff the whole key). -/
def entryEnc (base k : List Nat) (v : ValueMeta) : List Nat :=
  let diffKey := if base.length = 0 then k else k.drop (diffBaseKey base k)
  be16 (k.length - diffKey.length) ++ be16 diffKey.length ++ diffKey ++ v.serialize

/-- The per-entry encodings of a whole entry sequence: the first entry is
encoded against the empty base key, all later ones against the first
entry's key (which `push_entry` latches as the block's base key). -/
def entryEncs : List (List Nat × ValueMeta) → List (List Nat)
  | [] => []
  | (k, v) :: rest => entryEnc [] k v :: rest.map (fun e => entryEnc k e.1 e.2)

/-- Running offsets of a list of chunk lengths, starting at `s`: the
offset table `push_entry` accumulates. -/
def sumsFrom (s : Nat) : List Nat → List Nat
  | [] => []
  | l :: ls => s :: sumsFrom (s + l) ls

/-- Default entry used with `List.getD` when indexing entry sequences. -/
def dEntry : List Nat × ValueMeta := ([], ⟨0, 0, []⟩)

/-- The decoded block of an entry sequence whose finish-tail bytes are
`T`: entry data, offset table, and entry-data boundary. -/
def blockOf (entries : List (List Nat × ValueMeta)) (T : List Nat) : Block :=
  ⟨(entryEncs entries).flatten ++ T,
    sumsFrom 0 ((entryEncs entries).map List.length),
    (entryEncs entries).flatten.length⟩

/-- Running sum of the first `i` per-entry encoding lengths: the byte
offset at which entry `i` starts. -/
def sumTo (entries : List (List Nat × ValueMeta)) (i : Nat) : Nat :=
  (((entryEncs entries).map List.length).take i).sum

/-- The forward block-iterator state after `j + 1` successful `next`
calls on a freshly decoded block: positioned on entry `j`, holding its
reconstructed key and parsed header. -/
def iterAt (entries : List (List Nat × ValueMeta)) (T : List Nat) (j : Nat) :
    SinkBlockIter :=
  let k0 := (entries.getD 0 dEntry).1
  let kj := (entries.getD j dEntry).1
  let ov := if j = 0 then 0 else diffBaseKey k0 kj
  ⟨blockOf entries T, k0, kj, ⟨ov, kj.length - ov⟩, some j, none⟩

/-- A create change at level 0 (the shape used by the corrected manifest
replay claim). -/
def createChange (id keyId compression : Nat) : ManifestChange :=
  ⟨.create, id, 0, keyId, compression⟩

/-- A delete change at level 0. -/
def deleteChange (id : Nat) : ManifestChange :=
  ⟨.delete, id, 0, 0, 0⟩

/-- The byte stream of a sequence of framed change-set records. -/
def manifestRecords (css : List (List ManifestChange)) : List Nat :=
  (css.map (fun cs => encodeRecord (encodeChangeSet cs))).flatten

/-- A configuration with zero compactors whose every other field passes
`check_set_options`. -/
def optionsNoCompactors : Options :=
  ⟨0, 67108864, 0, 0, 0, 0, 0, 1073741824, false, true, .snappy, 0⟩

/-- The same configuration with exactly one compactor. -/
def optionsOneCompactor : Options :=
  ⟨1, 67108864, 0, 0, 0, 0, 0, 1073741824, false, true, .snappy, 0⟩

/-- A change whose numeric fields fit the wire widths of the change-set
encoding (id and key id in a u64, level and compression in a u32). -/
def changeSmall (c : ManifestChange) : Prop :=
  c.id < 18446744073709551616 ∧ c.level < 4294967296 ∧
    c.keyId < 18446744073709551616 ∧ c.compression < 4294967296

/-- A change-set whose fields and encoded payload fit their u32/u64 wire
widths. -/
def changeSetSmall (cs : List ManifestChange) : Prop :=
  (∀ c ∈ cs, changeSmall c) ∧ cs.length < 4294967296 ∧
    (encodeChangeSet cs).length < 4294967296

/-- Apply a sequence of change-sets in order (the accumulated effect of
replaying one record per change-set). -/
def applyCss (m : Manifest) : List (List ManifestChange) →
    Except ReplayError Manifest
  | [] => .ok m
  | cs :: rest => do applyCss (← applyChangeSet m cs) rest

instance (c : ManifestChange) : Decidable (changeSmall c) := by
  unfold changeSmall
  infer_instance

instance (cs : List ManifestChange) : Decidable (changeSetSmall cs) := by
  unfold changeSetSmall
  infer_instance

/-! # Theorems -/

/-- C8: for every allocation request, `Arena::alloc_layout` either returns
an address whose allocated range lies entirely inside the pre-sized arena
`[start, end)` — leaving the arena bounds untouched (it never grows) — or
panics exactly when the advanced cursor would pass the arena's end. -/
theorem arena_alloc_layout_bounded (a : Arena) (layout : Layout)
    (hcur : a.start ≤ a.ptr) :
    (∀ p a', allocLayout a layout = .ok (p, a') →
        a.start ≤ p ∧
        p + roundUpTo layout.size (max layout.align DEFAULT_ALIGN) ≤ a.end_ ∧
        a'.start = a.start ∧ a'.end_ = a.end_) ∧
    (allocLayout a layout = .error () ↔
      a.end_ < a.ptr + roundUpTo layout.size (max layout.align DEFAULT_ALIGN)) := by
  have heq : allocLayout a layout =
      if a.end_ < a.ptr + roundUpTo layout.size (max layout.align DEFAULT_ALIGN)
      then .error ()
      else .ok (a.ptr,
        { a with ptr := a.ptr + roundUpTo layout.size (max layout.align DEFAULT_ALIGN) }) := rfl
  rw [heq]
  by_cases hlt : a.end_ < a.ptr + roundUpTo layout.size (max layout.align DEFAULT_ALIGN)
  · rw [if_pos hlt]
    exact ⟨(fun p a' h => by cases h), (by simpa using hlt)⟩
  · rw [if_neg hlt]
    refine ⟨fun p a' h => ?_, by simp [hlt]⟩
    injection h with h'
    obtain ⟨rfl, rfl⟩ := Prod.mk.inj h'
    exact ⟨hcur, by omega, rfl, rfl⟩

/-- C8 witness: a concrete in-bounds allocation. -/
theorem arena_alloc_layout_bounded_witness :
    (∀ p a', allocLayout ⟨100, 200, 104⟩ ⟨16, 4⟩ = .ok (p, a') →
        (100 : Nat) ≤ p ∧
        p + roundUpTo 16 (max 4 DEFAULT_ALIGN) ≤ 200 ∧
        a'.start = 100 ∧ a'.end_ = 200) ∧
    (allocLayout ⟨100, 200, 104⟩ ⟨16, 4⟩ = .error () ↔
      (200 : Nat) < 104 + roundUpTo 16 (max 4 DEFAULT_ALIGN)) :=
  arena_alloc_layout_bounded ⟨100, 200, 104⟩ ⟨16, 4⟩ (by decide)

/-- C9 counterexample: `check_set_options` accepts a configuration with 0
compactors — only `num_compactors == 1` is rejected — refuting the claim
that every configuration with fewer than 2 compaction workers errors. -/
theorem check_set_options_zero_compactors_ok :
    (checkSetOptions optionsNoCompactors).isOk = true := by decide

/-- C9 amended: `check_set_options` rejects a configuration with exactly
one compactor ("Cannot have 1 compactor. Need at least 2"); a zero-compactor
configuration is not rejected on account of its compactor count. -/
theorem check_set_options_one_compactor_rejected (o : Options)
    (h : o.num_compactors = 1) :
    checkSetOptions o = .error "Cannot have 1 compactor. Need at least 2" := by
  unfold checkSetOptions
  rw [if_pos h]

/-- C9 amended witness. -/
theorem check_set_options_one_compactor_rejected_witness :
    checkSetOptions optionsOneCompactor =
      .error "Cannot have 1 compactor. Need at least 2" :=
  check_set_options_one_compactor_rejected optionsOneCompactor rfl

/-- C10: the streaming decoder `EntryHeader::decode_from` always returns
`meta = 0` and `user_meta = 0` no matter what the first two consumed bytes
were, while the slice decoder `EntryHeader::decode` recovers all five
fields; the two decoders therefore disagree on any record whose meta or
user-meta byte is non-zero. -/
theorem vlog_decode_from_loses_meta (b0 b1 : Nat) (rest : List Nat)
    (h : VlogEntryHeader) (r : List Nat)
    (hdec : vlogHeaderDecodeFrom (b0 :: b1 :: rest) = some (h, r)) :
    h.meta = 0 ∧ h.userMeta = 0 ∧
    ∃ h' c, vlogHeaderDecode (b0 :: b1 :: rest) = some (h', c) ∧
      h'.meta = b0 ∧ h'.userMeta = b1 ∧ h'.keyLen = h.keyLen ∧
      h'.valueLen = h.valueLen ∧ h'.expiresAt = h.expiresAt ∧
      (¬(b0 = 0 ∧ b1 = 0) → h' ≠ h) := by
  cases hv1 : varintDecode rest with
  | none => simp [vlogHeaderDecodeFrom, hv1] at hdec
  | some p1 =>
    obtain ⟨kl, c1⟩ := p1
    cases hv2 : varintDecode (rest.drop c1) with
    | none => simp [vlogHeaderDecodeFrom, hv1, hv2] at hdec
    | some p2 =>
      obtain ⟨vl, c2⟩ := p2
      cases hv3 : varintDecode (rest.drop (c1 + c2)) with
      | none => simp [vlogHeaderDecodeFrom, hv1, hv2, List.drop_drop, hv3,
          Nat.add_comm c2 c1] at hdec
      | some p3 =>
        obtain ⟨ea, c3⟩ := p3
        simp only [vlogHeaderDecodeFrom, hv1, hv2, List.drop_drop,
          Nat.add_comm c2 c1, hv3, Option.bind_eq_bind,
          Option.some_bind, Option.pure_def, Option.some.injEq,
          Prod.mk.injEq] at hdec
        obtain ⟨hh, -⟩ := hdec
        subst hh
        refine ⟨rfl, rfl, ⟨kl, vl, ea, b0, b1⟩, 2 + c1 + c2 + c3, ?_,
          rfl, rfl, rfl, rfl, rfl, ?_⟩
        · simp [vlogHeaderDecode, hv1, hv2, List.drop_drop, Nat.add_comm c2 c1, hv3]
        · intro hne heq
          rw [VlogEntryHeader.mk.injEq] at heq
          exact hne ⟨heq.2.2.2.1, heq.2.2.2.2⟩






/-- C10 witness: on the concrete record bytes `[5, 7, 3, 4, 9]` the
streaming decoder zeroes the meta fields that the slice decoder recovers
as 5 and 7. -/
theorem vlog_decode_from_loses_meta_witness :
    (⟨3, 4, 9, 0, 0⟩ : VlogEntryHeader).meta = 0 ∧
    (⟨3, 4, 9, 0, 0⟩ : VlogEntryHeader).userMeta = 0 ∧
    ∃ h' c, vlogHeaderDecode (5 :: 7 :: [3, 4, 9]) = some (h', c) ∧
      h'.meta = 5 ∧ h'.userMeta = 7 ∧
      h'.keyLen = (⟨3, 4, 9, 0, 0⟩ : VlogEntryHeader).keyLen ∧
      h'.valueLen = (⟨3, 4, 9, 0, 0⟩ : VlogEntryHeader).valueLen ∧
      h'.expiresAt = (⟨3, 4, 9, 0, 0⟩ : VlogEntryHeader).expiresAt ∧
      (¬((5 : Nat) = 0 ∧ (7 : Nat) = 0) → h' ≠ ⟨3, 4, 9, 0, 0⟩) :=
  vlog_decode_from_loses_meta 5 7 [3, 4, 9] ⟨3, 4, 9, 0, 0⟩ [] (by decide)

/-- C2 (code-bug evidence): with conflict detection enabled and
non-managed transactions, transaction B (which wrote the key hashed to 99)
commits at timestamp 6 — greater than A's read snapshot 5 — yet the
resulting oracle state still has an EMPTY `committed_txns` list, because
the push at oracle.rs:117-122 is gated on `managed_txns` instead of
`detect_conflicts`; transaction A, which read that same key (hash 99),
then commits successfully at timestamp 7 instead of failing with the
Conflict error the claim and spec require. -/
theorem oracle_conflicting_commit_succeeds :
    getLatestCommitTs ⟨true, false⟩ 0 ⟨6, 0, 0, []⟩ ⟨5, 0, [], [99]⟩ =
      .ok (6, ⟨7, 0, 0, []⟩) ∧
    getLatestCommitTs ⟨true, false⟩ 0 ⟨7, 0, 0, []⟩ ⟨5, 0, [99], []⟩ =
      .ok (7, ⟨8, 0, 0, []⟩) := by
  constructor <;> rfl

/-- C6 (code-bug evidence): in the value-log write path, an entry whose
value is below the per-entry threshold gets the default (inline) pointer —
that much agrees with the claim — but for the at-or-above-threshold
entries the scratch buffer holding the encoded `{header, key+value, crc32}`
record is never flushed to the segment and `writable_log_offset` is never
advanced: the segment bytes come back unchanged and BOTH out-of-line
entries receive pointers at offset 0, so the bytes each pointer references
cannot equal both distinct records. Threshold 10; values of length 10, 12
and 1; initial segment `[9, 9]`. -/
theorem vlog_write_never_appends :
    vlogWrite 1 536870912 10 0 [9, 9]
      [[⟨[1], 3, List.replicate 10 7, 0, 0, 0, 0⟩,
        ⟨[2], 3, List.replicate 12 8, 0, 0, 0, 0⟩,
        ⟨[3], 3, [1], 0, 0, 0, 0⟩]] =
      .ok ([[⟨1, 28, 0⟩, ⟨1, 30, 0⟩, ValuePointer.default]], [9, 9]) := by
  rfl

/-- C1 (code-bug evidence): a manifest file beginning with exactly the
header `help_rewrite` writes — the `"Bdgr"` magic, the configured external
version, and internal format version 8 — is always rejected by
`replay_manifest_file` with an unsupported-version error, because both
version reads re-read bytes 0..2 of the buffer (the temporary slice from
`magic_buf.as_ref()` restarts at the front on each call), yielding
`0x4264 = 16996` (`"Bd"`) instead of the stored version 8. The claim (and
the spec's file-format contract) says such a file is accepted and its
records replayed. -/
theorem manifest_replay_rejects_own_header (ext : Nat) (rest : List Nat) :
    replayManifestFile (helpRewriteHeader ext ++ rest) ext =
      .error (.unsupportedVersion 16996) := by
  rfl

/-- The longest-common-prefix length never exceeds the new key's length. -/
theorem diffBaseKey_le_right : ∀ a b : List Nat, diffBaseKey a b ≤ b.length := by
  intro a
  induction a with
  | nil => intro b; cases b <;> simp [diffBaseKey]
  | cons x xs ih =>
    intro b
    cases b with
    | nil => simp [diffBaseKey]
    | cons y ys =>
      by_cases h : x = y
      · simpa [diffBaseKey, h] using ih ys
      · simp [diffBaseKey, h]

/-- The longest-common-prefix length never exceeds the base key's length. -/
theorem diffBaseKey_le_left : ∀ a b : List Nat, diffBaseKey a b ≤ a.length := by
  intro a
  induction a with
  | nil => intro b; cases b <;> simp [diffBaseKey]
  | cons x xs ih =>
    intro b
    cases b with
    | nil => simp [diffBaseKey]
    | cons y ys =>
      by_cases h : x = y
      · simpa [diffBaseKey, h] using ih ys
      · simp [diffBaseKey, h]

/-- The two keys agree on their common prefix. -/
theorem diffBaseKey_take : ∀ a b : List Nat,
    a.take (diffBaseKey a b) = b.take (diffBaseKey a b) := by
  intro a
  induction a with
  | nil => intro b; cases b <;> simp [diffBaseKey]
  | cons x xs ih =>
    intro b
    cases b with
    | nil => simp [diffBaseKey]
    | cons y ys =>
      by_cases h : x = y
      · simp [diffBaseKey, h, ih ys]
      · simp [diffBaseKey, h]

/-- C5: block construction per entry. The first entry's full key becomes
the block's base key and is stored with overlap 0 and diff the whole key;
every later entry is stored as a 4-byte header `{overlap:u16, diff:u16}`
where overlap is the longest-common-prefix length of its key with the base
key and diff the length of the remaining suffix, followed by the diff
bytes and the serialized value (the offset table gains the entry's start
offset). And `should_finish_block` returns true exactly when the block
already holds an entry and the estimated size — data so far, the next
entry with its 6-byte header allowance, the grown offset table and
entry-count word, and the checksum record and length overhead (plus a
nonce when encrypting) — exceeds the configured block size. -/
theorem block_push_entry_encoding (b : BackendBlock) (k : List Nat)
    (v : ValueMeta) (blockSize : Nat) (isEncrypt : Bool) :
    (b.basekey = [] →
      b.pushEntry k v =
        { data := b.data ++ be16 0 ++ be16 k.length ++ k ++ v.serialize,
          basekey := k,
          entryOffsets := b.entryOffsets ++ [b.data.length] }) ∧
    (b.basekey ≠ [] →
      b.pushEntry k v =
        { data := b.data ++ be16 (diffBaseKey b.basekey k) ++
            be16 (k.length - diffBaseKey b.basekey k) ++
            k.drop (diffBaseKey b.basekey k) ++ v.serialize,
          basekey := b.basekey,
          entryOffsets := b.entryOffsets ++ [b.data.length] }) ∧
    (b.shouldFinishBlock k v blockSize isEncrypt = true ↔
      b.entryOffsets ≠ [] ∧
        blockSize < b.data.length + 6 + k.length + v.encodeSize +
          ((b.entryOffsets.length + 1) * 4 + 4 + 8 + 4) +
          (if isEncrypt then NONCE_SIZE else 0)) := by
  refine ⟨?_, ?_, ?_⟩
  · intro hbase
    simp [BackendBlock.pushEntry, hbase, BlockEntryHeader.serialize,
      List.append_assoc]
  · intro hbase
    have hlen : b.basekey.length ≠ 0 := by simpa using hbase
    have hov : k.length - (k.length - diffBaseKey b.basekey k) =
        diffBaseKey b.basekey k := by
      have hle := diffBaseKey_le_right b.basekey k
      omega
    simp [BackendBlock.pushEntry, BlockEntryHeader.serialize, hlen, hov,
      List.append_assoc]
  · unfold BackendBlock.shouldFinishBlock
    by_cases hempty : b.entryOffsets.length = 0
    · simp [hempty, List.length_eq_zero.mp hempty]
    · have hne : b.entryOffsets ≠ [] := fun h => hempty (by simp [h])
      simp only [if_neg hempty, decide_eq_true_eq, ValueMeta.encodeSize]
      constructor
      · intro h
        exact ⟨hne, by omega⟩
      · rintro ⟨-, h⟩
        omega

/-- C5 witness: a concrete two-entry block. -/
theorem block_push_entry_encoding_witness :
    (((BackendBlock.new.pushEntry [1, 2, 9] ⟨0, 0, [5]⟩)).basekey = [] →
      ((BackendBlock.new.pushEntry [1, 2, 9] ⟨0, 0, [5]⟩)).pushEntry [1, 2, 7] ⟨0, 0, [6]⟩ =
        { data := (BackendBlock.new.pushEntry [1, 2, 9] ⟨0, 0, [5]⟩).data ++
            be16 0 ++ be16 ([1, 2, 7] : List Nat).length ++ [1, 2, 7] ++
            ValueMeta.serialize ⟨0, 0, [6]⟩,
          basekey := [1, 2, 7],
          entryOffsets := (BackendBlock.new.pushEntry [1, 2, 9] ⟨0, 0, [5]⟩).entryOffsets ++
            [(BackendBlock.new.pushEntry [1, 2, 9] ⟨0, 0, [5]⟩).data.length] }) ∧
    ((BackendBlock.new.pushEntry [1, 2, 9] ⟨0, 0, [5]⟩).basekey ≠ [] →
      (BackendBlock.new.pushEntry [1, 2, 9] ⟨0, 0, [5]⟩).pushEntry [1, 2, 7] ⟨0, 0, [6]⟩ =
        { data := (BackendBlock.new.pushEntry [1, 2, 9] ⟨0, 0, [5]⟩).data ++
            be16 (diffBaseKey (BackendBlock.new.pushEntry [1, 2, 9] ⟨0, 0, [5]⟩).basekey [1, 2, 7]) ++
            be16 (([1, 2, 7] : List Nat).length -
              diffBaseKey (BackendBlock.new.pushEntry [1, 2, 9] ⟨0, 0, [5]⟩).basekey [1, 2, 7]) ++
            List.drop (diffBaseKey (BackendBlock.new.pushEntry [1, 2, 9] ⟨0, 0, [5]⟩).basekey [1, 2, 7]) [1, 2, 7] ++
            ValueMeta.serialize ⟨0, 0, [6]⟩,
          basekey := (BackendBlock.new.pushEntry [1, 2, 9] ⟨0, 0, [5]⟩).basekey,
          entryOffsets := (BackendBlock.new.pushEntry [1, 2, 9] ⟨0, 0, [5]⟩).entryOffsets ++
            [(BackendBlock.new.pushEntry [1, 2, 9] ⟨0, 0, [5]⟩).data.length] }) ∧
    ((BackendBlock.new.pushEntry [1, 2, 9] ⟨0, 0, [5]⟩).shouldFinishBlock [1, 2, 7] ⟨0, 0, [6]⟩ 16 false = true ↔
      (BackendBlock.new.pushEntry [1, 2, 9] ⟨0, 0, [5]⟩).entryOffsets ≠ [] ∧
        16 < (BackendBlock.new.pushEntry [1, 2, 9] ⟨0, 0, [5]⟩).data.length + 6 +
          ([1, 2, 7] : List Nat).length + ValueMeta.encodeSize ⟨0, 0, [6]⟩ +
          (((BackendBlock.new.pushEntry [1, 2, 9] ⟨0, 0, [5]⟩).entryOffsets.length + 1) * 4 + 4 + 8 + 4) +
          (if false then NONCE_SIZE else 0)) :=
  block_push_entry_encoding (BackendBlock.new.pushEntry [1, 2, 9] ⟨0, 0, [5]⟩)
    [1, 2, 7] ⟨0, 0, [6]⟩ 16 false

/-- A `splitsSpec` list has one more range than it has internal
boundaries. -/
theorem splitsSpec_length : ∀ (skr : KeyRange) (bs : List (List Nat)),
    (splitsSpec skr bs).length = bs.length + 1 := by
  intro skr bs
  induction bs generalizing skr with
  | nil => rfl
  | cons b rest ih => simp [splitsSpec, ih]

/-- Incrementing crosses a multiple of `w` exactly at residue `w - 1`. -/
theorem succ_mod_eq_zero_iff (w i : Nat) (hw : 0 < w) :
    (i + 1) % w = 0 ↔ i % w = w - 1 := by
  by_cases hw1 : w = 1
  · subst hw1; simp [Nat.mod_one]
  · have hw2 : 2 ≤ w := by omega
    have h1 : (1 : Nat) % w = 1 := Nat.mod_eq_of_lt (by omega)
    rw [Nat.add_mod, h1]
    have hlt : i % w < w := Nat.mod_lt _ hw
    by_cases he : i % w = w - 1
    · rw [he]
      have hww : w - 1 + 1 = w := by omega
      rw [hww, Nat.mod_self]
      simp [he]
    · have hsmall : i % w + 1 < w := by omega
      rw [Nat.mod_eq_of_lt hsmall]
      simp [he]

/-- No boundary is emitted at or past the last bottom index. -/
theorem internalBoundaries_nil (bottom : List SplitTable) (w : Nat) :
    ∀ (f i : Nat), bottom.length - 1 ≤ i →
      internalBoundaries bottom w f i = [] := by
  intro f
  induction f with
  | zero => intro i _; rfl
  | succ f ih =>
    intro i hi
    unfold internalBoundaries
    rw [if_neg (by omega)]
    exact ih (i + 1) (by omega)

/-- The split loop, started at index `i` with the exact remaining fuel,
produces the accumulated splits followed by the closed-form split list. -/
theorem addSplitsGo_eq (bottom : List SplitTable) (w : Nat) :
    ∀ (f : Nat), ∀ (i : Nat), f + i = bottom.length → 0 < f →
      ∀ (skr : KeyRange) (acc : List KeyRange),
        addSplitsGo bottom w f i skr acc =
          acc ++ splitsSpec skr (internalBoundaries bottom w f i) := by
  intro f
  induction f with
  | zero => intro i _ h0; omega
  | succ f ih =>
    intro i hfi _ skr acc
    by_cases hlast : i = bottom.length - 1
    · unfold addSplitsGo
      rw [if_pos hlast,
        internalBoundaries_nil bottom w (f + 1) i (by omega)]
      rfl
    · have hlt : i < bottom.length - 1 := by omega
      unfold addSplitsGo
      rw [if_neg hlast]
      by_cases hcond : i % w = w - 1
      · rw [if_pos hcond, ih (i + 1) (by omega) (by omega)]
        conv_rhs => rw [internalBoundaries]
        rw [if_pos ⟨hcond, hlt⟩]
        simp [splitsSpec]
      · rw [if_neg hcond, ih (i + 1) (by omega) (by omega)]
        conv_rhs => rw [internalBoundaries]
        rw [if_neg (by tauto)]

/-- The number of internal boundaries emitted from index `i` onwards. -/
theorem internalBoundaries_length (bottom : List SplitTable) (w : Nat)
    (hw : 0 < w) :
    ∀ (f i : Nat), f + i = bottom.length →
      (internalBoundaries bottom w f i).length =
        (bottom.length - 1) / w - i / w := by
  intro f
  induction f with
  | zero =>
    intro i hi
    unfold internalBoundaries
    have hle : (bottom.length - 1) / w ≤ i / w :=
      Nat.div_le_div_right (by omega)
    simp
    omega
  | succ f ih =>
    intro i hfi
    have hrec := ih (i + 1) (by omega)
    unfold internalBoundaries
    by_cases hcond : i % w = w - 1 ∧ i < bottom.length - 1
    · rw [if_pos hcond]
      have hdvd : w ∣ i + 1 :=
        Nat.dvd_of_mod_eq_zero ((succ_mod_eq_zero_iff w i hw).mpr hcond.1)
      have hsucc : (i + 1) / w = i / w + 1 := by
        rw [Nat.succ_div, if_pos hdvd]
      have hmono : (i + 1) / w ≤ (bottom.length - 1) / w :=
        Nat.div_le_div_right (by omega)
      simp only [List.length_cons, hrec]
      omega
    · rw [if_neg hcond]
      rw [hrec]
      by_cases hend : i < bottom.length - 1
      · have hcond2 : ¬ i % w = w - 1 := fun h => hcond ⟨h, hend⟩
        have hndvd : ¬ w ∣ i + 1 := fun h =>
          hcond2 ((succ_mod_eq_zero_iff w i hw).mp
            (Nat.mod_eq_zero_of_dvd h))
        have hsucc : (i + 1) / w = i / w := by
          rw [Nat.succ_div, if_neg hndvd]
          omega
        rw [hsucc]
      · have hi : i = bottom.length - 1 := by omega
        have h1 : (bottom.length - 1) / w ≤ i / w := Nat.div_le_div_right (by omega)
        have h2 : (bottom.length - 1) / w ≤ (i + 1) / w := Nat.div_le_div_right (by omega)
        omega

/-- C7 counterexample: with 100 bottom tables, `add_splits` produces 5
sub-ranges, not "roughly `max(3, ceil(bottom_count/5))` = 20" — the
`max(3, ceil(n/5))` quantity is the GROUP WIDTH (bottom tables spanned per
sub-range), so the sub-range count is `ceil(n / width)`, at most about 5. -/
theorem add_splits_count_counterexample :
    (addSplits KeyRange.default KeyRange.default
        (List.replicate 100 ⟨List.replicate 9 1⟩)).length = 5 ∧
    max 3 ((100 + 4) / 5) = 20 := by
  constructor
  · rfl
  · rfl

/-- C7 amended: for a non-empty bottom set, `add_splits` equals the closed
form `splitsSpec` seeded with `this_range` extended by `next_range` and the
internal boundaries — the biggest key (timestamp suffix 0) of every
`width`-th bottom table strictly before the last, where
`width = max(3, ceil(bottom_count/5))`; consecutive sub-ranges share each
boundary (the next left edge is the previous right edge) and the final
sub-range is right-open. The sub-range count is therefore
`(bottom_count - 1) / width + 1 = ceil(bottom_count / width)` — i.e. at
most about 5 — rather than the claimed `max(3, ceil(bottom_count/5))`. -/
theorem add_splits_characterization (tr nr : KeyRange)
    (bottom : List SplitTable) (hne : bottom ≠ []) :
    addSplits tr nr bottom =
      splitsSpec (tr.extend nr)
        (internalBoundaries bottom (max ((bottom.length + 4) / 5) 3)
          bottom.length 0) ∧
    (addSplits tr nr bottom).length =
      (bottom.length - 1) / max ((bottom.length + 4) / 5) 3 + 1 := by
  have hw : 0 < max ((bottom.length + 4) / 5) 3 := by
    have := Nat.le_max_right ((bottom.length + 4) / 5) 3
    omega
  have hn : 0 < bottom.length := List.length_pos.mpr hne
  have h1 := addSplitsGo_eq bottom (max ((bottom.length + 4) / 5) 3)
    bottom.length 0 (by omega) hn (tr.extend nr) []
  have hchar : addSplits tr nr bottom =
      splitsSpec (tr.extend nr)
        (internalBoundaries bottom (max ((bottom.length + 4) / 5) 3)
          bottom.length 0) := by
    unfold addSplits
    rw [h1]
    simp
  refine ⟨hchar, ?_⟩
  rw [hchar, splitsSpec_length,
    internalBoundaries_length bottom (max ((bottom.length + 4) / 5) 3) hw
      bottom.length 0 (by omega)]
  simp

/-- C7 amended witness: the characterization at 7 concrete bottom tables. -/
theorem add_splits_characterization_witness :
    ((List.range 7).map (fun i => (⟨[i, 0, 0, 0, 0, 0, 0, 0, 0]⟩ : SplitTable)) ≠ []) ∧
    (addSplits KeyRange.default KeyRange.default
        ((List.range 7).map (fun i => (⟨[i, 0, 0, 0, 0, 0, 0, 0, 0]⟩ : SplitTable))) =
      splitsSpec (KeyRange.default.extend KeyRange.default)
        (internalBoundaries
          ((List.range 7).map (fun i => (⟨[i, 0, 0, 0, 0, 0, 0, 0, 0]⟩ : SplitTable)))
          (max ((((List.range 7).map (fun i => (⟨[i, 0, 0, 0, 0, 0, 0, 0, 0]⟩ : SplitTable))).length + 4) / 5) 3)
          (((List.range 7).map (fun i => (⟨[i, 0, 0, 0, 0, 0, 0, 0, 0]⟩ : SplitTable))).length) 0) ∧
      (addSplits KeyRange.default KeyRange.default
          ((List.range 7).map (fun i => (⟨[i, 0, 0, 0, 0, 0, 0, 0, 0]⟩ : SplitTable)))).length =
        ((((List.range 7).map (fun i => (⟨[i, 0, 0, 0, 0, 0, 0, 0, 0]⟩ : SplitTable))).length - 1) /
          max ((((List.range 7).map (fun i => (⟨[i, 0, 0, 0, 0, 0, 0, 0, 0]⟩ : SplitTable))).length + 4) / 5) 3 + 1)) :=
  ⟨by decide,
    add_splits_characterization KeyRange.default KeyRange.default
      ((List.range 7).map (fun i => (⟨[i, 0, 0, 0, 0, 0, 0, 0, 0]⟩ : SplitTable)))
      (by decide)⟩

/-- `be32` round-trips through `be32get` for values that fit a u32,
regardless of trailing bytes. -/
theorem be32get_be32_append (n : Nat) (rest : List Nat)
    (h : n < 4294967296) : be32get (be32 n ++ rest) = n := by
  simp [be32, be32get]
  omega

/-- The 8-byte big-endian read round-trips `be64` for u64 values. -/
theorem be64Int_be64 (n : Nat) (h : n < 18446744073709551616) :
    decodeChange.be64Int (be64 n) = n := by
  simp [be64, decodeChange.be64Int]
  omega

/-- One encoded change occupies 25 bytes. -/
theorem encodeChange_length (c : ManifestChange) :
    (encodeChange c).length = 25 := by
  cases c with
  | mk op id level keyId compression => cases op <;> rfl

/-- Decoding one encoded change recovers it exactly and leaves the rest of
the buffer untouched. -/
theorem decodeChange_encodeChange (c : ManifestChange) (rst : List Nat)
    (h : changeSmall c) :
    decodeChange (encodeChange c ++ rst) = some (c, rst) := by
  obtain ⟨h1, h2, h3, h4⟩ := h
  obtain ⟨op, id, level, keyId, compression⟩ := c
  have hbody : ∀ opb : Nat,
      ((opb :: (be64 id ++ be32 level ++ be64 keyId ++ be32 compression)) ++ rst) =
        opb :: (be64 id ++ (be32 level ++ be64 keyId ++ be32 compression ++ rst)) := by
    intro opb
    simp [List.append_assoc]
  have hlen : (be64 id ++ (be32 level ++ be64 keyId ++ be32 compression ++ rst)).length =
      24 + rst.length := by
    simp [be64, be32]
    omega
  have htake8 : (be64 id ++ (be32 level ++ be64 keyId ++ be32 compression ++ rst)).take 8 =
      be64 id := List.take_left' (by simp [be64])
  have hdrop8 : (be64 id ++ (be32 level ++ be64 keyId ++ be32 compression ++ rst)).drop 8 =
      be32 level ++ be64 keyId ++ be32 compression ++ rst :=
    List.drop_left' (by simp [be64])
  have hdrop12 : (be64 id ++ (be32 level ++ be64 keyId ++ be32 compression ++ rst)).drop 12 =
      be64 keyId ++ (be32 compression ++ rst) := by
    have : be64 id ++ (be32 level ++ be64 keyId ++ be32 compression ++ rst) =
        (be64 id ++ be32 level) ++ (be64 keyId ++ (be32 compression ++ rst)) := by
      simp [List.append_assoc]
    rw [this]
    exact List.drop_left' (by simp [be64, be32])
  have hdrop20 : (be64 id ++ (be32 level ++ be64 keyId ++ be32 compression ++ rst)).drop 20 =
      be32 compression ++ rst := by
    have : be64 id ++ (be32 level ++ be64 keyId ++ be32 compression ++ rst) =
        (be64 id ++ be32 level ++ be64 keyId) ++ (be32 compression ++ rst) := by
      simp [List.append_assoc]
    rw [this]
    exact List.drop_left' (by simp [be64, be32])
  have hdrop24 : (be64 id ++ (be32 level ++ be64 keyId ++ be32 compression ++ rst)).drop 24 =
      rst := by
    have : be64 id ++ (be32 level ++ be64 keyId ++ be32 compression ++ rst) =
        (be64 id ++ be32 level ++ be64 keyId ++ be32 compression) ++ rst := by
      simp [List.append_assoc]
    rw [this]
    exact List.drop_left' (by simp [be64, be32])
  cases op with
  | create =>
    rw [show encodeChange ⟨.create, id, level, keyId, compression⟩ ++ rst =
        0 :: (be64 id ++ (be32 level ++ be64 keyId ++ be32 compression ++ rst)) from by
      simpa [encodeChange] using hbody 0]
    simp only [decodeChange, hlen, htake8, hdrop8, hdrop12, hdrop20, hdrop24]
    rw [if_neg (by omega)]
    norm_num
    refine ⟨be64Int_be64 id h1, be32get_be32_append level _ h2, ?_,
      be32get_be32_append compression rst h4⟩
    rw [List.take_left' (show (be64 keyId).length = 8 from rfl)]
    exact be64Int_be64 keyId h3
  | delete =>
    rw [show encodeChange ⟨.delete, id, level, keyId, compression⟩ ++ rst =
        1 :: (be64 id ++ (be32 level ++ be64 keyId ++ be32 compression ++ rst)) from by
      simpa [encodeChange] using hbody 1]
    simp only [decodeChange, hlen, htake8, hdrop8, hdrop12, hdrop20, hdrop24]
    rw [if_neg (by omega)]
    norm_num
    refine ⟨be64Int_be64 id h1, be32get_be32_append level _ h2, ?_,
      be32get_be32_append compression rst h4⟩
    rw [List.take_left' (show (be64 keyId).length = 8 from rfl)]
    exact be64Int_be64 keyId h3

/-- The change-list decoder inverts `flatMap encodeChange` when fed the
exact count. -/
theorem decodeChangeSet_go_encode (cs : List ManifestChange)
    (h : ∀ c ∈ cs, changeSmall c) :
    decodeChangeSet.go cs.length (cs.flatMap encodeChange) = some cs := by
  induction cs with
  | nil => rfl
  | cons c rest ih =>
    simp only [List.flatMap_cons, List.length_cons]
    unfold decodeChangeSet.go
    rw [decodeChange_encodeChange c (rest.flatMap encodeChange)
      (h c (by simp))]
    simp [ih (fun c' hc' => h c' (by simp [hc']))]

/-- Decoding a serialized change-set recovers it exactly. -/
theorem decodeChangeSet_encode (cs : List ManifestChange)
    (h : changeSetSmall cs) :
    decodeChangeSet (encodeChangeSet cs) = some cs := by
  obtain ⟨hc, hn, -⟩ := h
  unfold decodeChangeSet encodeChangeSet
  rw [dif_neg (by simp [be32])]
  rw [List.take_left' (show (be32 cs.length).length = 4 from rfl),
    List.drop_left' (show (be32 cs.length).length = 4 from rfl),
    show be32get (be32 cs.length) = cs.length from by
      simpa using be32get_be32_append cs.length [] hn]
  exact decodeChangeSet_go_encode cs hc

/-- The CRC-32 state stays within a u32. -/
theorem crc32Step_lt (c : Nat) (h : c < 4294967296) :
    crc32Step c < 4294967296 := by
  unfold crc32Step
  have h32 : (4294967296 : Nat) = 2 ^ 32 := by norm_num
  split
  · rw [h32]
    exact Nat.xor_lt_two_pow (by omega) (by norm_num)
  · omega

/-- One CRC-32 byte step stays within a u32. -/
theorem crc32Byte_lt (c b : Nat) (h : c < 4294967296) :
    crc32Byte c b < 4294967296 := by
  have hx : c ^^^ b % 256 < 4294967296 := by
    have h32 : (4294967296 : Nat) = 2 ^ 32 := by norm_num
    rw [h32]
    exact Nat.xor_lt_two_pow (by omega) (by omega)
  unfold crc32Byte
  rw [show List.range 8 = [0, 1, 2, 3, 4, 5, 6, 7] from rfl]
  simp only [List.foldl_cons, List.foldl_nil]
  exact crc32Step_lt _ (crc32Step_lt _ (crc32Step_lt _ (crc32Step_lt _
    (crc32Step_lt _ (crc32Step_lt _ (crc32Step_lt _ (crc32Step_lt _ hx)))))))

/-- `crc32` always fits a u32. -/
theorem crc32_lt (data : List Nat) : crc32 data < 4294967296 := by
  unfold crc32
  have hfold : ∀ (l : List Nat) (c : Nat), c < 4294967296 →
      l.foldl crc32Byte c < 4294967296 := by
    intro l
    induction l with
    | nil => intro c hc; simpa using hc
    | cons b rest ih =>
      intro c hc
      simpa using ih (crc32Byte c b) (crc32Byte_lt c b hc)
  have h32 : (4294967296 : Nat) = 2 ^ 32 := by norm_num
  rw [h32]
  exact Nat.xor_lt_two_pow (by norm_num) (by
    rw [← h32]; exact hfold data _ (by norm_num))

/-- The record-replay loop ignores the exact amount of fuel as long as it
exceeds the stream length (each iteration consumes at least 8 bytes). -/
theorem replayRecordsGo_fuel_congr (fpSize : Nat) :
    ∀ (n f₁ f₂ offset : Nat) (stream : List Nat) (m : Manifest),
      stream.length ≤ n → stream.length < f₁ → stream.length < f₂ →
      replayRecordsGo fpSize f₁ offset stream m =
        replayRecordsGo fpSize f₂ offset stream m := by
  intro n
  induction n with
  | zero =>
    intro f₁ f₂ offset stream m hn h1 h2
    have hs : stream.length = 0 := by omega
    obtain ⟨fa, rfl⟩ : ∃ fa, f₁ = fa + 1 := ⟨f₁ - 1, by omega⟩
    obtain ⟨fb, rfl⟩ : ∃ fb, f₂ = fb + 1 := ⟨f₂ - 1, by omega⟩
    unfold replayRecordsGo
    rw [if_pos (by omega), if_pos (by omega)]
  | succ n ih =>
    intro f₁ f₂ offset stream m hn h1 h2
    obtain ⟨fa, rfl⟩ : ∃ fa, f₁ = fa + 1 := ⟨f₁ - 1, by omega⟩
    obtain ⟨fb, rfl⟩ : ∃ fb, f₂ = fb + 1 := ⟨f₂ - 1, by omega⟩
    unfold replayRecordsGo
    by_cases h8 : stream.length < 8
    · rw [if_pos h8, if_pos h8]
    · rw [if_neg h8, if_neg h8]
      by_cases hbig : offset + be32get (stream.take 4) > fpSize
      · rw [if_pos hbig, if_pos hbig]
      · rw [if_neg hbig, if_neg hbig]
        by_cases heof : (stream.drop 8).length < be32get (stream.take 4)
        · rw [if_pos heof, if_pos heof]
        · rw [if_neg heof, if_neg heof]
          by_cases hcrc : crc32 ((stream.drop 8).take (be32get (stream.take 4))) ≠
              be32get ((stream.drop 4).take 4)
          · rw [if_pos hcrc, if_pos hcrc]
          · rw [if_neg hcrc, if_neg hcrc]
            cases hdec : decodeChangeSet ((stream.drop 8).take (be32get (stream.take 4))) with
            | none => simp only [hdec]
            | some cs =>
              cases happ : applyChangeSet m cs with
              | error e => simp only [hdec, happ]
              | ok m' =>
                simp only [hdec, happ]
                apply ih
                · simp only [List.length_drop] at *
                  omega
                · simp only [List.length_drop] at *
                  omega
                · simp only [List.length_drop] at *
                  omega

/-- Replaying one well-formed record applies its change-set and advances
the returned truncation offset past the record. -/
theorem replayRecords_record (offset fpSize : Nat) (cs : List ManifestChange)
    (m m' : Manifest) (rst : List Nat)
    (hsmall : changeSetSmall cs)
    (hfp : offset + (encodeChangeSet cs).length ≤ fpSize)
    (happ : applyChangeSet m cs = .ok m') :
    replayRecords offset fpSize (encodeRecord (encodeChangeSet cs) ++ rst) m =
      replayRecords (offset + (8 + (encodeChangeSet cs).length)) fpSize rst m' := by
  obtain ⟨hcsm, hcnt, hplen⟩ := hsmall
  have hassoc : encodeRecord (encodeChangeSet cs) ++ rst =
      be32 (encodeChangeSet cs).length ++
        (be32 (crc32 (encodeChangeSet cs)) ++ (encodeChangeSet cs ++ rst)) := by
    simp [encodeRecord]
  have hassoc2 : be32 (encodeChangeSet cs).length ++
        (be32 (crc32 (encodeChangeSet cs)) ++ (encodeChangeSet cs ++ rst)) =
      (be32 (encodeChangeSet cs).length ++ be32 (crc32 (encodeChangeSet cs))) ++
        (encodeChangeSet cs ++ rst) := by
    simp [List.append_assoc]
  have hslen : (encodeRecord (encodeChangeSet cs) ++ rst).length =
      8 + (encodeChangeSet cs).length + rst.length := by
    simp [encodeRecord, be32]
    omega
  have htake4 : (be32 (encodeChangeSet cs).length ++
        (be32 (crc32 (encodeChangeSet cs)) ++ (encodeChangeSet cs ++ rst))).take 4 =
      be32 (encodeChangeSet cs).length := List.take_left' rfl
  have hdrop4 : (be32 (encodeChangeSet cs).length ++
        (be32 (crc32 (encodeChangeSet cs)) ++ (encodeChangeSet cs ++ rst))).drop 4 =
      be32 (crc32 (encodeChangeSet cs)) ++ (encodeChangeSet cs ++ rst) :=
    List.drop_left' rfl
  have hdrop8 : (be32 (encodeChangeSet cs).length ++
        (be32 (crc32 (encodeChangeSet cs)) ++ (encodeChangeSet cs ++ rst))).drop 8 =
      encodeChangeSet cs ++ rst := by
    rw [hassoc2]
    exact List.drop_left' rfl
  have hwlen : (be32 (encodeChangeSet cs).length ++
        (be32 (crc32 (encodeChangeSet cs)) ++ (encodeChangeSet cs ++ rst))).length =
      8 + (encodeChangeSet cs).length + rst.length := by
    rw [← hassoc]
    exact hslen
  unfold replayRecords
  rw [hslen, hassoc]
  unfold replayRecordsGo
  rw [if_neg (by rw [hwlen]; omega)]
  simp only [htake4, hdrop4, hdrop8,
    List.take_left' (show (be32 (crc32 (encodeChangeSet cs))).length = 4 from rfl),
    show be32get (be32 (encodeChangeSet cs).length) = (encodeChangeSet cs).length from by
      simpa using be32get_be32_append _ [] hplen,
    show be32get (be32 (crc32 (encodeChangeSet cs))) = crc32 (encodeChangeSet cs) from by
      simpa using be32get_be32_append _ [] (crc32_lt _)]
  rw [if_neg (by omega)]
  rw [if_neg (by simp)]
  rw [List.take_left _ _, if_neg (by simp)]
  simp only [decodeChangeSet_encode cs ⟨hcsm, hcnt, hplen⟩, happ]
  rw [List.drop_left _ _]
  exact replayRecordsGo_fuel_congr fpSize rst.length
    (8 + (encodeChangeSet cs).length + rst.length) (rst.length + 1)
    (offset + (8 + (encodeChangeSet cs).length)) rst m'
    (le_refl _) (by omega) (by omega)

/-- A trailing partial record is discarded without error (and without
advancing the offset) when either its 8-byte length+crc header is itself
truncated, or its declared payload overruns the stream without overrunning
the file size: both `read_exact` `UnexpectedEof` breaks of the loop. -/
theorem replayRecords_partial_tail (offset fpSize : Nat) (tail : List Nat)
    (m : Manifest)
    (h : tail.length < 8 ∨
      (offset + be32get (tail.take 4) ≤ fpSize ∧
        tail.length - 8 < be32get (tail.take 4))) :
    replayRecords offset fpSize tail m = .ok (m, offset) := by
  unfold replayRecords
  unfold replayRecordsGo
  rcases h with h8 | ⟨hfp, htrunc⟩
  · rw [if_pos h8]
  · by_cases h8 : tail.length < 8
    · rw [if_pos h8]
    · rw [if_neg h8, if_neg (by omega),
        if_pos (by simp only [List.length_drop]; omega)]

/-- Replaying a sequence of well-formed records applies their change-sets
in order and advances past all of them. -/
theorem replayRecords_manifestRecords :
    ∀ (css : List (List ManifestChange)) (offset fpSize : Nat)
      (m m' : Manifest) (tail : List Nat),
      (∀ cs ∈ css, changeSetSmall cs) →
      applyCss m css = .ok m' →
      offset + (manifestRecords css).length + tail.length ≤ fpSize →
      replayRecords offset fpSize (manifestRecords css ++ tail) m =
        replayRecords (offset + (manifestRecords css).length) fpSize tail m' := by
  intro css
  induction css with
  | nil =>
    intro offset fpSize m m' tail _ happ _
    cases show m = m' from by simpa [applyCss] using happ
    simp [manifestRecords]
  | cons cs rest ih =>
    intro offset fpSize m m' tail hsmall happ hfp
    obtain ⟨m1, hm1, happ1⟩ : ∃ m1, applyChangeSet m cs = .ok m1 ∧
        applyCss m1 rest = .ok m' := by
      cases hx : applyChangeSet m cs with
      | error e => rw [applyCss, hx] at happ; cases happ
      | ok m1 => rw [applyCss, hx] at happ; exact ⟨m1, rfl, happ⟩
    have hrec : manifestRecords (cs :: rest) =
        encodeRecord (encodeChangeSet cs) ++ manifestRecords rest := by
      simp [manifestRecords]
    have hreclen : (manifestRecords (cs :: rest)).length =
        (8 + (encodeChangeSet cs).length) + (manifestRecords rest).length := by
      rw [hrec]
      simp [encodeRecord, be32]
      omega
    rw [hrec, List.append_assoc,
      replayRecords_record offset fpSize cs m m1
        (manifestRecords rest ++ tail) (hsmall cs (by simp))
        (by rw [hreclen] at hfp; omega) hm1,
      ih (offset + (8 + (encodeChangeSet cs).length)) fpSize m1 m' tail
        (fun c hc => hsmall c (by simp [hc]))
        happ1 (by rw [hreclen] at hfp; omega),
      show (encodeRecord (encodeChangeSet cs) ++ manifestRecords rest).length =
          8 + (encodeChangeSet cs).length + (manifestRecords rest).length from by
        rw [← hrec]; exact hreclen]
    congr 1
    omega

/-- Lookup distributes over append when the key is absent on the left. -/
theorem assocGet_append_of_none (x : Nat) (a b : List (Nat × TableManifest))
    (h : assocGet x a = none) : assocGet x (a ++ b) = assocGet x b := by
  induction a with
  | nil => simp
  | cons p rest ih =>
    obtain ⟨k, v⟩ := p
    by_cases hk : k = x
    · simp [assocGet, hk] at h
    · simp only [List.cons_append, assocGet, if_neg hk] at h ⊢
      exact ih h

/-- A key is found exactly when it occurs among the stored keys. -/
theorem assocGet_isSome_iff (x : Nat) :
    ∀ l : List (Nat × TableManifest),
      (assocGet x l).isSome = true ↔ x ∈ l.map Prod.fst := by
  intro l
  induction l with
  | nil => simp [assocGet]
  | cons p rest ih =>
    obtain ⟨k, v⟩ := p
    by_cases hk : k = x
    · simp [assocGet, hk]
    · simp [assocGet, hk, ih, Ne.symm hk]

/-- Removing one key leaves lookups of other keys unchanged. -/
theorem assocGet_remove_ne (x y : Nat) (hxy : x ≠ y) :
    ∀ l : List (Nat × TableManifest),
      assocGet x (assocRemove y l) = assocGet x l := by
  intro l
  induction l with
  | nil => rfl
  | cons p rest ih =>
    obtain ⟨k, v⟩ := p
    by_cases hky : k = y
    · subst hky
      simp [assocRemove, assocGet, Ne.symm hxy]
    · by_cases hkx : k = x
      · subst hkx
        simp [assocRemove, assocGet, hky, hxy]
      · simp [assocRemove, assocGet, hky, hkx, ih]

/-- Removing a present key shortens the list by exactly one entry. -/
theorem assocRemove_length (x : Nat) :
    ∀ l : List (Nat × TableManifest), (assocGet x l).isSome = true →
      (assocRemove x l).length + 1 = l.length := by
  intro l
  induction l with
  | nil => simp [assocGet]
  | cons p rest ih =>
    obtain ⟨k, v⟩ := p
    by_cases hk : k = x
    · simp [assocRemove, hk]
    · intro h
      simp only [assocGet, if_neg hk] at h
      simp only [assocRemove, if_neg hk, List.length_cons]
      rw [← ih h]

/-- Applying level-0 creates with fresh distinct ids appends one table
entry per id and counts the creations. -/
theorem applyChangeSet_creates (kid cmp : Nat → Nat) :
    ∀ (ids : List Nat) (s : List Nat) (t : List (Nat × TableManifest))
      (c d : Int),
      ids.Nodup → (∀ id ∈ ids, assocGet id t = none) →
      applyChangeSet ⟨[s], t, c, d⟩
          (ids.map (fun i => createChange i (kid i) (cmp i))) =
        .ok ⟨[s ++ ids], t ++ ids.map (fun i => (i, ⟨0, kid i, cmp i⟩)),
          c + ids.length, d⟩ := by
  intro ids
  induction ids with
  | nil =>
    intro s t c d _ _
    simp [applyChangeSet]
  | cons id rest ih =>
    intro s t c d hnodup hnone
    have hstep : applyManifestChange ⟨[s], t, c, d⟩
        (createChange id (kid id) (cmp id)) =
        .ok ⟨[s ++ [id]], t ++ [(id, ⟨0, kid id, cmp id⟩)], c + 1, d⟩ := by
      simp [applyManifestChange, createChange, hnone id (by simp), modifyLevel]
    simp only [List.map_cons, applyChangeSet, hstep, Except.instMonad, Except.bind]
    have hih := ih (s ++ [id])
      (t ++ [(id, (⟨0, kid id, cmp id⟩ : TableManifest))]) (c + 1) d
      ((List.nodup_cons.mp hnodup).2)
      (by
        intro id' hid'
        rw [assocGet_append_of_none id' t _ (hnone id' (by simp [hid']))]
        have hne : id ≠ id' := fun h =>
          (List.nodup_cons.mp hnodup).1 (h ▸ hid')
        simp [assocGet, hne])
    rw [hih]
    congr 1
    simp [List.append_assoc]
    omega

/-- Applying level-0 deletes of distinct present ids removes one table
entry per id and counts the deletions. -/
theorem applyChangeSet_deletes :
    ∀ (delIds : List Nat) (s : List Nat) (t : List (Nat × TableManifest))
      (c d : Int),
      delIds.Nodup → (∀ id ∈ delIds, (assocGet id t).isSome = true) →
      ∃ (s' : List Nat) (t' : List (Nat × TableManifest)),
        applyChangeSet ⟨[s], t, c, d⟩ (delIds.map deleteChange) =
          .ok ⟨[s'], t', c, d + delIds.length⟩ ∧
        t'.length + delIds.length = t.length := by
  intro delIds
  induction delIds with
  | nil =>
    intro s t c d _ _
    exact ⟨s, t, by simp [applyChangeSet], by simp⟩
  | cons id rest ih =>
    intro s t c d hnodup hsome
    have hstep : applyManifestChange ⟨[s], t, c, d⟩ (deleteChange id) =
        .ok ⟨[s.filter (· ≠ id)], assocRemove id t, c, d + 1⟩ := by
      have hpresent := hsome id (by simp)
      have : (assocGet id t).isNone = false := by
        cases h : assocGet id t with
        | none => rw [h] at hpresent; cases hpresent
        | some v => rfl
      simp [applyManifestChange, deleteChange, this, modifyLevel]
    obtain ⟨s', t', heq, hlen⟩ := ih (s.filter (· ≠ id)) (assocRemove id t)
      c (d + 1) (List.nodup_cons.mp hnodup).2
      (by
        intro id' hid'
        have hne : id' ≠ id := fun h =>
          (List.nodup_cons.mp hnodup).1 (h ▸ hid')
        rw [assocGet_remove_ne id' id hne t]
        exact hsome id' (by simp [hid']))
    refine ⟨s', t', ?_, ?_⟩
    · simp only [List.map_cons, applyChangeSet, hstep, Except.instMonad, Except.bind]
      rw [heq]
      congr 1
      simp
      omega
    · have hrl := assocRemove_length id t (hsome id (by simp))
      simp only [List.length_cons]
      omega

/-- Applying a concatenation of change lists chains the two applications. -/
theorem applyChangeSet_append (m : Manifest) (xs ys : List ManifestChange) :
    applyChangeSet m (xs ++ ys) =
      (applyChangeSet m xs).bind (fun m1 => applyChangeSet m1 ys) := by
  induction xs generalizing m with
  | nil => rfl
  | cons x rest ih =>
    simp only [List.cons_append, applyChangeSet]
    cases hx : applyManifestChange m x with
    | error e => simp [applyChangeSet, hx, Except.instMonad, Except.bind]
    | ok m1 => simp [applyChangeSet, hx, Except.instMonad, Except.bind, ih m1]

/-- Replaying record change-sets one by one equals applying their
concatenation. -/
theorem applyCss_eq_flatten (css : List (List ManifestChange)) :
    ∀ m : Manifest, applyCss m css = applyChangeSet m css.flatten := by
  induction css with
  | nil => intro m; simp [applyCss, applyChangeSet]
  | cons cs rest ih =>
    intro m
    simp only [applyCss, List.flatten_cons, applyChangeSet_append]
    cases hx : applyChangeSet m cs with
    | error e => simp [hx, Except.instMonad, Except.bind]
    | ok m1 => simp [hx, Except.instMonad, Except.bind, ih m1]

set_option maxRecDepth 4000 in
/-- C3 counterexample: one complete, checksum-valid record (a single
create of table 1, i.e. N = 1, M = 0) followed by a truncated partial
record whose 8-byte header declares a 9-byte payload that is absent. The
file size is 53 = 8 (magic header) + 37 (complete record) + 8 (partial
tail). Replay returns the "buffer len too greater" corruption error
instead of discarding the tail and returning Ok — the loop checks
`offset + change_len > fp_size` before attempting the truncated payload
read, so not every truncated trailing record is silently discarded. -/
theorem manifest_replay_partial_tail_error :
    replayRecords 8 53
      (encodeRecord (encodeChangeSet [createChange 1 0 0]) ++
        [0, 0, 0, 9, 0, 0, 0, 0]) Manifest.empty =
      .error .bufferTooLarge := by
  rfl

/-- C3 amended: a record stream whose complete, checksum-valid records
hold N level-0 creates with distinct table ids followed by M level-0
deletes of M of those ids replays to Ok with exactly N − M live tables,
the returned truncation offset being the end of the last complete record —
PROVIDED the trailing partial record is either shorter than its 8-byte
length+crc header, or declares a payload length no greater than the number
of tail bytes present (otherwise replay rejects the file with a corruption
error, see the counterexample); creates must stay at levels the manifest
already has (level skips panic on the level index), which the level-0
shape of this statement guarantees. -/
theorem manifest_replay_records_amended (ids delIds : List Nat)
    (kid cmp : Nat → Nat) (css : List (List ManifestChange))
    (tail : List Nat) (offset : Nat)
    (hids : ids.Nodup) (hdel : delIds.Nodup)
    (hsub : ∀ x ∈ delIds, x ∈ ids)
    (hflat : css.flatten =
      ids.map (fun i => createChange i (kid i) (cmp i)) ++
        delIds.map deleteChange)
    (hsmall : ∀ cs ∈ css, changeSetSmall cs)
    (htail : tail.length < 8 ∨
      (be32get (tail.take 4) ≤ tail.length ∧
        tail.length - 8 < be32get (tail.take 4))) :
    ∃ m : Manifest,
      replayRecords offset (offset + (manifestRecords css).length + tail.length)
          (manifestRecords css ++ tail) Manifest.empty =
        .ok (m, offset + (manifestRecords css).length) ∧
      m.tables.length + delIds.length = ids.length ∧
      m.tables.length = ids.length - delIds.length := by
  have hfinal : ∃ mf : Manifest,
      applyCss Manifest.empty css = .ok mf ∧
      mf.tables.length + delIds.length = ids.length := by
    rw [applyCss_eq_flatten, hflat, applyChangeSet_append]
    cases ids with
    | nil =>
      have hdelnil : delIds = [] := List.eq_nil_iff_forall_not_mem.mpr
        (fun x hx => by simpa using hsub x hx)
      subst hdelnil
      exact ⟨Manifest.empty, rfl, by simp [Manifest.empty]⟩
    | cons id0 rest =>
      have hstep0 : applyManifestChange Manifest.empty
          (createChange id0 (kid id0) (cmp id0)) =
          .ok ⟨[[id0]], [(id0, ⟨0, kid id0, cmp id0⟩)], 1, 0⟩ := by
        simp [applyManifestChange, createChange, Manifest.empty, assocGet,
          modifyLevel]
      have hcr := applyChangeSet_creates kid cmp rest [id0]
        [(id0, (⟨0, kid id0, cmp id0⟩ : TableManifest))] 1 0
        ((List.nodup_cons.mp hids).2)
        (fun id' hid' => by
          have hne : id0 ≠ id' := fun h =>
            (List.nodup_cons.mp hids).1 (h ▸ hid')
          simp [assocGet, hne])
      have hallcr : applyChangeSet Manifest.empty
          ((id0 :: rest).map (fun i => createChange i (kid i) (cmp i))) =
          .ok ⟨[id0 :: rest],
            (id0 :: rest).map (fun i => (i, ⟨0, kid i, cmp i⟩)),
            (1 : Int) + rest.length, 0⟩ := by
        simp only [List.map_cons, applyChangeSet, hstep0, Except.instMonad,
          Except.bind]
        rw [hcr]
        congr 1
      have hsome : ∀ id ∈ delIds,
          (assocGet id ((id0 :: rest).map
            (fun i => (i, (⟨0, kid i, cmp i⟩ : TableManifest))))).isSome = true := by
        intro id hid
        rw [assocGet_isSome_iff]
        simpa [List.map_map, Function.comp] using hsub id hid
      obtain ⟨s', t', heq, hlen⟩ := applyChangeSet_deletes delIds (id0 :: rest)
        ((id0 :: rest).map (fun i => (i, ⟨0, kid i, cmp i⟩)))
        ((1 : Int) + rest.length) 0 hdel hsome
      refine ⟨⟨[s'], t', (1 : Int) + rest.length, (0 : Int) + delIds.length⟩,
        ?_, ?_⟩
      · rw [hallcr]
        simpa [Except.instMonad, Except.bind] using heq
      · simpa using hlen
  obtain ⟨mf, happ, hcount⟩ := hfinal
  refine ⟨mf, ?_, hcount, by omega⟩
  rw [replayRecords_manifestRecords css offset
    (offset + (manifestRecords css).length + tail.length) Manifest.empty mf
    tail hsmall happ (le_refl _)]
  apply replayRecords_partial_tail
  rcases htail with h8 | ⟨h1, h2⟩
  · exact Or.inl h8
  · exact Or.inr ⟨by omega, h2⟩

/-- C3 amended witness: two creates then one delete, with a 3-byte
truncated tail. -/
theorem manifest_replay_records_amended_witness :
    ∃ m : Manifest,
      replayRecords 8
          (8 + (manifestRecords
            [[createChange 1 0 0, createChange 2 0 0], [deleteChange 2]]).length +
            ([1, 2, 3] : List Nat).length)
          (manifestRecords
            [[createChange 1 0 0, createChange 2 0 0], [deleteChange 2]] ++
              [1, 2, 3]) Manifest.empty =
        .ok (m, 8 + (manifestRecords
          [[createChange 1 0 0, createChange 2 0 0], [deleteChange 2]]).length) ∧
      m.tables.length + ([2] : List Nat).length = ([1, 2] : List Nat).length ∧
      m.tables.length = ([1, 2] : List Nat).length - ([2] : List Nat).length :=
  manifest_replay_records_amended [1, 2] [2] (fun _ => 0) (fun _ => 0)
    [[createChange 1 0 0, createChange 2 0 0], [deleteChange 2]] [1, 2, 3] 8
    (by decide) (by decide) (by decide) (by decide) (by decide) (by decide)

/-- `be16` round-trips through `be16get` for values that fit a u16,
regardless of trailing bytes. -/
theorem be16get_be16_append (n : Nat) (rest : List Nat) (h : n < 65536) :
    be16get (be16 n ++ rest) = n := by
  simp [be16, be16get]
  omega

/-- `push_entry` on a block with a latched base key appends exactly the
entry encoding and the entry's start offset. -/
theorem pushEntry_spec_ne (b : BackendBlock) (k : List Nat) (v : ValueMeta)
    (hb : b.basekey ≠ []) :
    b.pushEntry k v =
      ⟨b.data ++ entryEnc b.basekey k v, b.basekey,
        b.entryOffsets ++ [b.data.length]⟩ := by
  have hlen : ¬ b.basekey.length = 0 := by simpa using hb
  simp [BackendBlock.pushEntry, entryEnc, BlockEntryHeader.serialize, hlen,
    List.append_assoc]

/-- `push_entry` on a fresh block latches the key as base key and appends
the first-entry encoding (overlap 0, diff the whole key). -/
theorem pushEntry_spec_empty (b : BackendBlock) (k : List Nat) (v : ValueMeta)
    (hb : b.basekey = []) :
    b.pushEntry k v =
      ⟨b.data ++ entryEnc [] k v, k, b.entryOffsets ++ [b.data.length]⟩ := by
  have hlen : b.basekey.length = 0 := by simp [hb]
  simp [BackendBlock.pushEntry, entryEnc, BlockEntryHeader.serialize, hlen,
    List.append_assoc]

/-- Folding `push_entry` over further entries extends the data with their
encodings against the fixed base key and the offset table with the running
offsets. -/
theorem foldl_pushEntry_spec (base : List Nat) (hbase : base ≠ []) :
    ∀ (es : List (List Nat × ValueMeta)) (b : BackendBlock),
      b.basekey = base →
      es.foldl (fun b e => b.pushEntry e.1 e.2) b =
        ⟨b.data ++ (es.map (fun e => entryEnc base e.1 e.2)).flatten, base,
          b.entryOffsets ++
            sumsFrom b.data.length
              (es.map (fun e => (entryEnc base e.1 e.2).length))⟩ := by
  intro es
  induction es with
  | nil =>
    intro b hb
    simp [sumsFrom, ← hb]
  | cons e rest ih =>
    intro b hb
    obtain ⟨k, v⟩ := e
    simp only [List.foldl_cons]
    rw [show b.pushEntry k v =
        ⟨b.data ++ entryEnc base k v, base, b.entryOffsets ++ [b.data.length]⟩ from by
      rw [pushEntry_spec_ne b k v (hb ▸ hbase), hb]]
    rw [ih ⟨b.data ++ entryEnc base k v, base, b.entryOffsets ++ [b.data.length]⟩ rfl]
    simp [sumsFrom, List.append_assoc]

/-- The backend block built from a non-empty entry sequence: data is the
concatenation of the per-entry encodings, the base key is the first key,
and the offset table is the running sum of encoding lengths. -/
theorem buildBackendBlock_spec (k0 : List Nat) (v0 : ValueMeta)
    (rest : List (List Nat × ValueMeta)) (h0 : k0 ≠ []) :
    buildBackendBlock ((k0, v0) :: rest) =
      ⟨(entryEncs ((k0, v0) :: rest)).flatten, k0,
        sumsFrom 0 ((entryEncs ((k0, v0) :: rest)).map List.length)⟩ := by
  unfold buildBackendBlock
  simp only [List.foldl_cons]
  rw [pushEntry_spec_empty BackendBlock.new k0 v0 rfl]
  rw [foldl_pushEntry_spec k0 h0 rest
    ⟨BackendBlock.new.data ++ entryEnc [] k0 v0, k0,
      BackendBlock.new.entryOffsets ++ [BackendBlock.new.data.length]⟩ rfl]
  simp [BackendBlock.new, entryEncs, sumsFrom, Function.comp_def]

/-- The offset table serializes to 4 bytes per entry. -/
theorem vecU32ToBytes_length (l : List Nat) :
    (vecU32ToBytes l).length = 4 * l.length := by
  induction l with
  | nil => rfl
  | cons x rest ih =>
    simp [vecU32ToBytes, be32] at ih ⊢
    omega

/-- Reading back the serialized offset table recovers it, entry by entry. -/
theorem readU32s_vecU32ToBytes :
    ∀ l : List Nat, (∀ x ∈ l, x < 4294967296) →
      blockDecode.readU32s l.length (vecU32ToBytes l) = l := by
  intro l
  induction l with
  | nil => intro _; rfl
  | cons x rest ih =>
    intro h
    simp only [vecU32ToBytes, List.flatMap_cons, List.length_cons]
    unfold blockDecode.readU32s
    rw [show be32 x ++ rest.flatMap be32 = be32 x ++ rest.flatMap be32 from rfl,
      be32get_be32_append x _ (h x (by simp)),
      List.drop_left' (show (be32 x).length = 4 from rfl)]
    rw [show rest.flatMap be32 = vecU32ToBytes rest from rfl,
      ih (fun y hy => h y (by simp [hy]))]

/-- Decoding the on-disk block layout — entry data, offset table, entry
count, an 8-byte checksum record, checksum length — recovers the offset
table and the entry-data boundary. -/
theorem blockDecode_layout (D offs chk : List Nat) (hchk : chk.length = 8)
    (hoff : ∀ x ∈ offs, x < 4294967296) (hcnt : offs.length < 4294967296) :
    blockDecode ((D ++ vecU32ToBytes offs ++ be32 offs.length) ++ chk ++ be32 8) =
      some ⟨(D ++ vecU32ToBytes offs ++ be32 offs.length) ++ chk ++ be32 8,
        offs, D.length⟩ := by
  have hofflen := vecU32ToBytes_length offs
  have hAlen : (D ++ vecU32ToBytes offs ++ be32 offs.length).length =
      D.length + 4 * offs.length + 4 := by
    simp [hofflen, be32]
    omega
  have hrawlen : ((D ++ vecU32ToBytes offs ++ be32 offs.length) ++ chk ++ be32 8).length =
      D.length + 4 * offs.length + 16 := by
    simp [hAlen, hchk, be32]
    omega
  have hdrop1 : ((D ++ vecU32ToBytes offs ++ be32 offs.length) ++ chk ++ be32 8).drop
      (((D ++ vecU32ToBytes offs ++ be32 offs.length) ++ chk ++ be32 8).length - 4) =
      be32 8 := by
    rw [hrawlen]
    exact List.drop_left' (by simp [hofflen, hchk, be32]; try omega)
  have htake1 : ((D ++ vecU32ToBytes offs ++ be32 offs.length) ++ chk ++ be32 8).take
      (((D ++ vecU32ToBytes offs ++ be32 offs.length) ++ chk ++ be32 8).length - 4 - 8) =
      D ++ vecU32ToBytes offs ++ be32 offs.length := by
    rw [hrawlen, List.append_assoc]
    exact List.take_left' (by simp [hofflen, hchk, be32]; try omega)
  have hdrop2 : (D ++ vecU32ToBytes offs ++ be32 offs.length).drop
      ((D ++ vecU32ToBytes offs ++ be32 offs.length).length - 4) =
      be32 offs.length := by
    rw [hAlen]
    exact List.drop_left' (by simp [hofflen, be32]; try omega)
  have htake2 : (D ++ vecU32ToBytes offs ++ be32 offs.length).take
      ((D ++ vecU32ToBytes offs ++ be32 offs.length).length - 4) =
      D ++ vecU32ToBytes offs := by
    rw [hAlen]
    exact List.take_left' (by simp [hofflen, be32]; try omega)
  have hBlen : (D ++ vecU32ToBytes offs).length = D.length + 4 * offs.length := by
    simp [hofflen]
  have hdrop3 : (D ++ vecU32ToBytes offs).drop
      ((D ++ vecU32ToBytes offs).length - 4 * offs.length) =
      vecU32ToBytes offs := by
    rw [hBlen]
    exact List.drop_left' (by omega)
  unfold blockDecode
  rw [if_neg (by rw [hrawlen]; omega)]
  simp only [hdrop1,
    show be32get (be32 8) = 8 from rfl]
  rw [if_neg (by rw [hrawlen]; omega)]
  simp only [htake1, hdrop2,
    show ∀ x, be32get (be32 x ++ []) = be32get (be32 x) from fun x => by simp]
  rw [show be32get (be32 offs.length) = offs.length from by
    simpa using be32get_be32_append offs.length [] hcnt]
  simp only [htake2]
  rw [if_neg (by rw [hBlen]; omega)]
  simp only [hdrop3, readU32s_vecU32ToBytes offs hoff, hBlen]
  congr 2
  · rw [show D.length + 4 * offs.length - 4 * offs.length = D.length from by omega,
      List.drop_left D (vecU32ToBytes offs)]
    exact readU32s_vecU32ToBytes offs hoff
  · simp [hofflen]

/-- `finish_block` output decodes to a block exposing the same offset
table and the entry-data boundary. -/
theorem blockDecode_finishBlock (b : BackendBlock)
    (hoff : ∀ x ∈ b.entryOffsets, x < 4294967296)
    (hcnt : b.entryOffsets.length < 4294967296) :
    blockDecode b.finishBlock =
      some ⟨b.finishBlock, b.entryOffsets, b.data.length⟩ := by
  have hfin : b.finishBlock =
      (b.data ++ vecU32ToBytes b.entryOffsets ++ be32 b.entryOffsets.length) ++
        checksumRecord
          (b.data ++ vecU32ToBytes b.entryOffsets ++ be32 b.entryOffsets.length) ++
        be32 8 := rfl
  rw [hfin]
  exact blockDecode_layout b.data b.entryOffsets _ rfl hoff hcnt

/-- The running-offset list is as long as its input. -/
theorem sumsFrom_length : ∀ (ls : List Nat) (s : Nat),
    (sumsFrom s ls).length = ls.length := by
  intro ls
  induction ls with
  | nil => intro s; rfl
  | cons l rest ih => intro s; simp [sumsFrom, ih]

/-- The `j`-th running offset is the start plus the sum of the first `j`
chunk lengths. -/
theorem sumsFrom_getD : ∀ (ls : List Nat) (j s : Nat), j < ls.length →
    (sumsFrom s ls).getD j 0 = s + ((ls.take j).sum) := by
  intro ls
  induction ls with
  | nil => intro j s h; simp at h
  | cons l rest ih =>
    intro j s h
    cases j with
    | zero => simp [sumsFrom]
    | succ j =>
      simp only [sumsFrom, List.getD_cons_succ, List.take_succ_cons,
        List.sum_cons]
      rw [ih j (s + l) (by simpa using h)]
      omega

/-- Every running offset is bounded by the start plus the total length. -/
theorem sumsFrom_mem_le : ∀ (ls : List Nat) (s : Nat) (x : Nat),
    x ∈ sumsFrom s ls → x ≤ s + ls.sum := by
  intro ls
  induction ls with
  | nil => intro s x h; simp [sumsFrom] at h
  | cons l rest ih =>
    intro s x h
    simp only [sumsFrom, List.mem_cons] at h
    rcases h with rfl | h
    · omega
    · have := ih (s + l) x h
      simp only [List.sum_cons]
      omega

/-- Dropping the length of the first `j` chunks from a flattened list
yields the flattening of the remaining chunks. -/
theorem drop_flatten_sum : ∀ (encs : List (List Nat)) (j : Nat),
    encs.flatten.drop (((encs.take j).map List.length).sum) =
      (encs.drop j).flatten := by
  intro encs
  induction encs with
  | nil => intro j; simp
  | cons e rest ih =>
    intro j
    cases j with
    | zero => simp
    | succ j =>
      simp only [List.take_succ_cons, List.map_cons, List.sum_cons,
        List.flatten_cons, List.drop_succ_cons]
      rw [List.drop_append (((rest.take j).map List.length).sum)]
      exact ih j

/-- One encoding per entry. -/
theorem entryEncs_length (entries : List (List Nat × ValueMeta)) :
    (entryEncs entries).length = entries.length := by
  cases entries with
  | nil => rfl
  | cons e rest => obtain ⟨k, v⟩ := e; simp [entryEncs]

/-- The entry encoding against a non-empty base key, spelled out. -/
theorem entryEnc_ne (base k : List Nat) (v : ValueMeta) (h : base ≠ []) :
    entryEnc base k v =
      be16 (diffBaseKey base k) ++ be16 (k.length - diffBaseKey base k) ++
        k.drop (diffBaseKey base k) ++ v.serialize := by
  have hlen : ¬ base.length = 0 := by simpa using h
  have hov : k.length - (k.length - diffBaseKey base k) = diffBaseKey base k := by
    have := diffBaseKey_le_right base k
    omega
  simp [entryEnc, hlen, hov]

/-- The first-entry encoding, spelled out. -/
theorem entryEnc_nil (k : List Nat) (v : ValueMeta) :
    entryEnc [] k v = be16 0 ++ be16 k.length ++ k ++ v.serialize := by
  simp [entryEnc]

/-- The `j`-th entry encoding of a non-empty sequence. -/
theorem entryEncs_getD (k0 : List Nat) (v0 : ValueMeta)
    (rest : List (List Nat × ValueMeta)) (j : Nat)
    (hj : j < ((k0, v0) :: rest).length) :
    (entryEncs ((k0, v0) :: rest)).getD j [] =
      if j = 0 then entryEnc [] k0 v0
      else entryEnc k0 ((((k0, v0) :: rest).getD j dEntry).1)
        ((((k0, v0) :: rest).getD j dEntry).2) := by
  cases j with
  | zero => rfl
  | succ j =>
    have hj' : j < rest.length := by simpa using hj
    simp only [entryEncs, List.getD_cons_succ]
    rw [List.getD_eq_getElem _ _ (by simpa using hj'),
      List.getD_eq_getElem _ _ hj']
    simp

/-- Entry start offsets never pass the end of the entry data. -/
theorem sumTo_le_length (entries : List (List Nat × ValueMeta)) (i : Nat) :
    sumTo entries i ≤ (entryEncs entries).flatten.length := by
  unfold sumTo
  rw [List.length_flatten]
  have h := List.take_append_drop i ((entryEncs entries).map List.length)
  calc (((entryEncs entries).map List.length).take i).sum
      ≤ (((entryEncs entries).map List.length).take i).sum +
        (((entryEncs entries).map List.length).drop i).sum := by omega
    _ = ((entryEncs entries).map List.length).sum := by
        rw [← List.sum_append, h]

/-- The block data from entry `i` on: the remaining encodings then the
finish tail. -/
theorem blockOf_drop_sumTo (entries : List (List Nat × ValueMeta))
    (T : List Nat) (i : Nat) :
    (blockOf entries T).data.drop (sumTo entries i) =
      ((entryEncs entries).drop i).flatten ++ T := by
  unfold blockOf sumTo
  simp only
  rw [List.drop_append_of_le_length (by
    have := sumTo_le_length entries i
    unfold sumTo at this
    exact this)]
  congr 1
  rw [← List.map_take]
  exact drop_flatten_sum (entryEncs entries) i

/-- The `j`-th offset-table entry is the running sum of the first `j`
encoding lengths. -/
theorem blockOf_getD_offsets (entries : List (List Nat × ValueMeta))
    (T : List Nat) (j : Nat) (hj : j < entries.length) :
    (blockOf entries T).entryOffsets.getD j 0 = sumTo entries j := by
  unfold blockOf sumTo
  simp only
  rw [sumsFrom_getD _ _ _ (by simp [entryEncs_length, hj])]
  omega

/-- The total of all encoding lengths is the entry-data length. -/
theorem sumTo_full (entries : List (List Nat × ValueMeta)) :
    sumTo entries (entryEncs entries).length =
      (entryEncs entries).flatten.length := by
  unfold sumTo
  rw [List.take_of_length_le (by simp), List.length_flatten]

/-- Crossing one entry advances the running offset by that entry's
encoded length. -/
theorem sumTo_succ (entries : List (List Nat × ValueMeta)) (j : Nat)
    (hj : j < entries.length) :
    sumTo entries (j + 1) =
      sumTo entries j + ((entryEncs entries).getD j []).length := by
  unfold sumTo
  have hj' : j < ((entryEncs entries).map List.length).length := by
    simp [entryEncs_length, hj]
  rw [List.take_succ, List.sum_append]
  congr 1
  rw [List.getElem?_eq_getElem hj']
  simp only [Option.toList_some, List.sum_cons, List.sum_nil]
  rw [List.getD_eq_getElem _ _ (by simpa using hj')]
  simp

/-- Parsing the 4-byte header at the front of an entry encoding recovers
the overlap and diff fields. -/
theorem blockHeaderDeserialize_take (a b : Nat) (X : List Nat)
    (ha : a < 65536) (hb : b < 65536) :
    blockHeaderDeserialize ((be16 a ++ (be16 b ++ X)).take HEADER_SIZE) =
      ⟨a, b⟩ := by
  rw [show be16 a ++ (be16 b ++ X) = (be16 a ++ be16 b) ++ X from by
    simp [List.append_assoc]]
  rw [show HEADER_SIZE = 4 from rfl,
    List.take_left' (show (be16 a ++ be16 b).length = 4 from by simp [be16])]
  unfold blockHeaderDeserialize
  rw [be16get_be16_append a (be16 b) ha,
    List.drop_left' (show (be16 a).length = 2 from rfl),
    show be16get (be16 b) = b from by simpa using be16get_be16_append b [] hb]

/-- The two keys of an indexed entry agree with the base key on the
stored overlap, and the overlap is within both keys. -/
theorem iter_overlap_facts (k0 : List Nat) (v0 : ValueMeta)
    (rest : List (List Nat × ValueMeta)) (j : Nat) :
    (if j = 0 then 0
      else diffBaseKey k0 ((((k0, v0) :: rest).getD j dEntry).1)) ≤
        ((((k0, v0) :: rest).getD j dEntry).1).length ∧
    (if j = 0 then 0
      else diffBaseKey k0 ((((k0, v0) :: rest).getD j dEntry).1)) ≤ k0.length ∧
    k0.take (if j = 0 then 0
      else diffBaseKey k0 ((((k0, v0) :: rest).getD j dEntry).1)) =
      ((((k0, v0) :: rest).getD j dEntry).1).take
        (if j = 0 then 0
          else diffBaseKey k0 ((((k0, v0) :: rest).getD j dEntry).1)) := by
  by_cases hj : j = 0
  · simp [hj]
  · simp only [if_neg hj]
    exact ⟨diffBaseKey_le_right _ _, diffBaseKey_le_left _ _,
      diffBaseKey_take _ _⟩

/-- Advancing the iterator from entry `j` to entry `j + 1`: `next` returns
`true` and the state at `j + 1`, with the key rebuilt from the shared
prefix (via the base key) plus the stored diff bytes. -/
theorem iterAt_next_step (k0 : List Nat) (v0 : ValueMeta)
    (rest : List (List Nat × ValueMeta)) (T : List Nat) (j : Nat)
    (hk0 : k0 ≠ [])
    (hklen : ∀ e ∈ (k0, v0) :: rest, e.1.length < 65536)
    (hj : j + 1 < ((k0, v0) :: rest).length) :
    (iterAt ((k0, v0) :: rest) T j).next =
      (true, iterAt ((k0, v0) :: rest) T (j + 1)) := by
  have hjr : j < rest.length := by simpa using hj
  have hofflen : (blockOf ((k0, v0) :: rest) T).entryOffsets.length
      = rest.length + 1 := by
    simp [blockOf, sumsFrom_length, entryEncs_length]
  have hmem1 : ((k0, v0) :: rest).getD (j + 1) dEntry ∈ (k0, v0) :: rest := by
    rw [List.getD_eq_getElem _ _ (by simpa using hj)]
    exact List.getElem_mem _
  have hk1len : ((((k0, v0) :: rest).getD (j + 1) dEntry).1).length < 65536 :=
    hklen _ hmem1
  have hov1le : diffBaseKey k0 ((((k0, v0) :: rest).getD (j + 1) dEntry).1)
      ≤ ((((k0, v0) :: rest).getD (j + 1) dEntry).1).length :=
    diffBaseKey_le_right _ _
  have hov1lt : diffBaseKey k0 ((((k0, v0) :: rest).getD (j + 1) dEntry).1)
      < 65536 := lt_of_le_of_lt hov1le hk1len
  have hd1lt : ((((k0, v0) :: rest).getD (j + 1) dEntry).1).length
      - diffBaseKey k0 ((((k0, v0) :: rest).getD (j + 1) dEntry).1) < 65536 :=
    lt_of_le_of_lt (Nat.sub_le _ _) hk1len
  have hoff1 : (blockOf ((k0, v0) :: rest) T).entryOffsets.getD (j + 1) 0
      = sumTo ((k0, v0) :: rest) (j + 1) :=
    blockOf_getD_offsets _ _ _ (by simpa using hj)
  have hlt1 : j + 1 < (entryEncs ((k0, v0) :: rest)).length := by
    rw [entryEncs_length]; simpa using hj
  have hdropEnc : (entryEncs ((k0, v0) :: rest)).drop (j + 1)
      = (entryEncs ((k0, v0) :: rest)).getD (j + 1) []
          :: (entryEncs ((k0, v0) :: rest)).drop (j + 1 + 1) := by
    rw [List.drop_eq_getElem_cons hlt1, List.getD_eq_getElem _ _ hlt1]
  have hgetd1 : (entryEncs ((k0, v0) :: rest)).getD (j + 1) []
      = entryEnc k0 ((((k0, v0) :: rest).getD (j + 1) dEntry).1)
          ((((k0, v0) :: rest).getD (j + 1) dEntry).2) := by
    rw [entryEncs_getD k0 v0 rest (j + 1) (by simpa using hj)]
    simp
  have hdata : (blockOf ((k0, v0) :: rest) T).data.drop
        (sumTo ((k0, v0) :: rest) (j + 1))
      = be16 (diffBaseKey k0 ((((k0, v0) :: rest).getD (j + 1) dEntry).1))
          ++ (be16 (((((k0, v0) :: rest).getD (j + 1) dEntry).1).length
                - diffBaseKey k0 ((((k0, v0) :: rest).getD (j + 1) dEntry).1))
          ++ (((((k0, v0) :: rest).getD (j + 1) dEntry).1).drop
                (diffBaseKey k0 ((((k0, v0) :: rest).getD (j + 1) dEntry).1))
          ++ (((((k0, v0) :: rest).getD (j + 1) dEntry).2).serialize
          ++ (((entryEncs ((k0, v0) :: rest)).drop (j + 1 + 1)).flatten ++ T)))) := by
    rw [blockOf_drop_sumTo, hdropEnc, List.flatten_cons, hgetd1,
      entryEnc_ne _ _ _ hk0]
    simp [List.append_assoc]
  obtain ⟨hle_kj, hle_k0, htake_eq⟩ := iter_overlap_facts k0 v0 rest j
  simp only [iterAt, List.getD_cons_zero]
  unfold SinkBlockIter.next
  simp only []
  rw [if_neg (by simp only [hofflen, Nat.add_sub_cancel, beq_iff_eq]; omega)]
  rw [hoff1, hdata]
  rw [blockHeaderDeserialize_take _ _ _ hov1lt hd1lt]
  have hdrop4 : List.drop HEADER_SIZE
      (be16 (diffBaseKey k0 ((((k0, v0) :: rest).getD (j + 1) dEntry).1))
          ++ (be16 (((((k0, v0) :: rest).getD (j + 1) dEntry).1).length
                - diffBaseKey k0 ((((k0, v0) :: rest).getD (j + 1) dEntry).1))
          ++ (((((k0, v0) :: rest).getD (j + 1) dEntry).1).drop
                (diffBaseKey k0 ((((k0, v0) :: rest).getD (j + 1) dEntry).1))
          ++ (((((k0, v0) :: rest).getD (j + 1) dEntry).2).serialize
          ++ (((entryEncs ((k0, v0) :: rest)).drop (j + 1 + 1)).flatten ++ T)))))
      = ((((k0, v0) :: rest).getD (j + 1) dEntry).1).drop
            (diffBaseKey k0 ((((k0, v0) :: rest).getD (j + 1) dEntry).1))
          ++ (((((k0, v0) :: rest).getD (j + 1) dEntry).2).serialize
          ++ (((entryEncs ((k0, v0) :: rest)).drop (j + 1 + 1)).flatten ++ T)) := by
    rw [show (be16 (diffBaseKey k0 ((((k0, v0) :: rest).getD (j + 1) dEntry).1))
          ++ (be16 (((((k0, v0) :: rest).getD (j + 1) dEntry).1).length
                - diffBaseKey k0 ((((k0, v0) :: rest).getD (j + 1) dEntry).1))
          ++ (((((k0, v0) :: rest).getD (j + 1) dEntry).1).drop
                (diffBaseKey k0 ((((k0, v0) :: rest).getD (j + 1) dEntry).1))
          ++ (((((k0, v0) :: rest).getD (j + 1) dEntry).2).serialize
          ++ (((entryEncs ((k0, v0) :: rest)).drop (j + 1 + 1)).flatten ++ T)))))
        = (be16 (diffBaseKey k0 ((((k0, v0) :: rest).getD (j + 1) dEntry).1))
          ++ be16 (((((k0, v0) :: rest).getD (j + 1) dEntry).1).length
                - diffBaseKey k0 ((((k0, v0) :: rest).getD (j + 1) dEntry).1)))
          ++ (((((k0, v0) :: rest).getD (j + 1) dEntry).1).drop
                (diffBaseKey k0 ((((k0, v0) :: rest).getD (j + 1) dEntry).1))
          ++ (((((k0, v0) :: rest).getD (j + 1) dEntry).2).serialize
          ++ (((entryEncs ((k0, v0) :: rest)).drop (j + 1 + 1)).flatten ++ T)))
      from by simp [List.append_assoc]]
    rw [show HEADER_SIZE = 4 from rfl]
    exact List.drop_left' (by simp [be16])
  rw [hdrop4]
  have htaked1 : List.take (((((k0, v0) :: rest).getD (j + 1) dEntry).1).length
          - diffBaseKey k0 ((((k0, v0) :: rest).getD (j + 1) dEntry).1))
      (((((k0, v0) :: rest).getD (j + 1) dEntry).1).drop
            (diffBaseKey k0 ((((k0, v0) :: rest).getD (j + 1) dEntry).1))
          ++ (((((k0, v0) :: rest).getD (j + 1) dEntry).2).serialize
          ++ (((entryEncs ((k0, v0) :: rest)).drop (j + 1 + 1)).flatten ++ T)))
      = ((((k0, v0) :: rest).getD (j + 1) dEntry).1).drop
            (diffBaseKey k0 ((((k0, v0) :: rest).getD (j + 1) dEntry).1)) :=
    List.take_left' (by simp)
  rw [htaked1]
  rw [if_neg (Nat.succ_ne_zero j)]
  simp only [Prod.mk.injEq, SinkBlockIter.mk.injEq, true_and, and_true]
  by_cases hc : (if j = 0 then 0
        else diffBaseKey k0 ((((k0, v0) :: rest).getD j dEntry).1))
      < diffBaseKey k0 ((((k0, v0) :: rest).getD (j + 1) dEntry).1)
  · rw [if_pos hc, ← htake_eq, ← List.take_add,
      show (if j = 0 then 0
          else diffBaseKey k0 ((((k0, v0) :: rest).getD j dEntry).1))
        + (diffBaseKey k0 ((((k0, v0) :: rest).getD (j + 1) dEntry).1)
          - (if j = 0 then 0
            else diffBaseKey k0 ((((k0, v0) :: rest).getD j dEntry).1)))
        = diffBaseKey k0 ((((k0, v0) :: rest).getD (j + 1) dEntry).1)
        from by omega,
      diffBaseKey_take, List.take_append_drop]
  · rw [if_neg hc]
    have h3 : k0.take (diffBaseKey k0 ((((k0, v0) :: rest).getD (j + 1) dEntry).1))
        = (((k0, v0) :: rest).getD j dEntry).1.take
            (diffBaseKey k0 ((((k0, v0) :: rest).getD (j + 1) dEntry).1)) := by
      have h4 := congrArg
        (List.take (diffBaseKey k0 ((((k0, v0) :: rest).getD (j + 1) dEntry).1)))
        htake_eq
      rw [List.take_take, List.take_take,
        Nat.min_eq_left (show
          diffBaseKey k0 ((((k0, v0) :: rest).getD (j + 1) dEntry).1)
          ≤ (if j = 0 then 0
            else diffBaseKey k0 ((((k0, v0) :: rest).getD j dEntry).1))
          from by omega)] at h4
      exact h4
    rw [← h3, diffBaseKey_take, List.take_append_drop]

/-- Dropping the 4 header bytes of an encoded entry. -/
theorem drop4_be16_be16 (a b : Nat) (X : List Nat) :
    List.drop HEADER_SIZE (be16 a ++ (be16 b ++ X)) = X := by
  rw [show be16 a ++ (be16 b ++ X) = (be16 a ++ be16 b) ++ X from by
    simp [List.append_assoc]]
  rw [show HEADER_SIZE = 4 from rfl]
  exact List.drop_left' (by simp [be16])

/-- The block data from entry `j` onward, decomposed as that entry's
header, diff bytes and value followed by the later entries and the
finish-tail bytes. -/
theorem blockOf_drop_entry (k0 : List Nat) (v0 : ValueMeta)
    (rest : List (List Nat × ValueMeta)) (T : List Nat) (j : Nat)
    (hk0 : k0 ≠ []) (hj : j < ((k0, v0) :: rest).length) :
    (blockOf ((k0, v0) :: rest) T).data.drop (sumTo ((k0, v0) :: rest) j)
      = be16 (if j = 0 then 0
            else diffBaseKey k0 ((((k0, v0) :: rest).getD j dEntry).1))
        ++ (be16 (((((k0, v0) :: rest).getD j dEntry).1).length
              - (if j = 0 then 0
                else diffBaseKey k0 ((((k0, v0) :: rest).getD j dEntry).1)))
        ++ ((((k0, v0) :: rest).getD j dEntry).1.drop
              (if j = 0 then 0
                else diffBaseKey k0 ((((k0, v0) :: rest).getD j dEntry).1))
        ++ ((((k0, v0) :: rest).getD j dEntry).2.serialize
        ++ (((entryEncs ((k0, v0) :: rest)).drop (j + 1)).flatten ++ T)))) := by
  have hlt : j < (entryEncs ((k0, v0) :: rest)).length := by
    rw [entryEncs_length]; exact hj
  have hdropEnc : (entryEncs ((k0, v0) :: rest)).drop j
      = (entryEncs ((k0, v0) :: rest)).getD j []
          :: (entryEncs ((k0, v0) :: rest)).drop (j + 1) := by
    rw [List.drop_eq_getElem_cons hlt, List.getD_eq_getElem _ _ hlt]
  rw [blockOf_drop_sumTo, hdropEnc, List.flatten_cons,
    entryEncs_getD k0 v0 rest j hj]
  by_cases h0 : j = 0
  · subst h0
    simp only [if_pos rfl, List.getD_cons_zero]
    rw [entryEnc_nil]
    simp [List.append_assoc]
  · simp only [if_neg h0]
    rw [entryEnc_ne _ _ _ hk0]
    simp [List.append_assoc]

/-- The byte length of the `j`-th entry encoding. -/
theorem entryEncs_getD_length (k0 : List Nat) (v0 : ValueMeta)
    (rest : List (List Nat × ValueMeta)) (j : Nat)
    (hk0 : k0 ≠ []) (hj : j < ((k0, v0) :: rest).length) :
    ((entryEncs ((k0, v0) :: rest)).getD j []).length
      = HEADER_SIZE
        + ((((k0, v0) :: rest).getD j dEntry).1.length
            - (if j = 0 then 0
              else diffBaseKey k0 ((((k0, v0) :: rest).getD j dEntry).1)))
        + (((k0, v0) :: rest).getD j dEntry).2.serialize.length := by
  rw [entryEncs_getD k0 v0 rest j hj]
  by_cases h0 : j = 0
  · subst h0
    simp only [if_pos rfl, List.getD_cons_zero]
    rw [entryEnc_nil]
    simp [be16, HEADER_SIZE]
    omega
  · simp only [if_neg h0]
    rw [entryEnc_ne _ _ _ hk0]
    have := diffBaseKey_le_right k0 (((k0, v0) :: rest).getD j dEntry).1
    simp [be16, HEADER_SIZE]
    omega

/-- On the last entry, `next` reports the end of the block and leaves the
state unchanged. -/
theorem iterAt_next_stop (k0 : List Nat) (v0 : ValueMeta)
    (rest : List (List Nat × ValueMeta)) (T : List Nat) (j : Nat)
    (hj : j + 1 = ((k0, v0) :: rest).length) :
    (iterAt ((k0, v0) :: rest) T j).next
      = (false, iterAt ((k0, v0) :: rest) T j) := by
  have hofflen : (blockOf ((k0, v0) :: rest) T).entryOffsets.length
      = rest.length + 1 := by
    simp [blockOf, sumsFrom_length, entryEncs_length]
  simp only [iterAt, List.getD_cons_zero]
  unfold SinkBlockIter.next
  simp only []
  rw [if_pos (by
    simp only [hofflen, Nat.add_sub_cancel, beq_iff_eq]
    simp only [List.length_cons] at hj
    omega)]

/-- The first `next` call on a freshly decoded block latches the base key
and the first header from entry 0 and lands on entry 0. -/
theorem iterAt_next_init (k0 : List Nat) (v0 : ValueMeta)
    (rest : List (List Nat × ValueMeta)) (T : List Nat)
    (hk0len : k0.length < 65536) :
    (SinkBlockIter.fromBlock (blockOf ((k0, v0) :: rest) T)).next
      = (true, iterAt ((k0, v0) :: rest) T 0) := by
  have hofflen : (blockOf ((k0, v0) :: rest) T).entryOffsets.length
      = rest.length + 1 := by
    simp [blockOf, sumsFrom_length, entryEncs_length]
  have henc : entryEncs ((k0, v0) :: rest)
      = entryEnc [] k0 v0 :: rest.map (fun e => entryEnc k0 e.1 e.2) := rfl
  have hdata : (blockOf ((k0, v0) :: rest) T).data
      = be16 0 ++ (be16 k0.length ++ (k0 ++ (v0.serialize
          ++ ((rest.map (fun e => entryEnc k0 e.1 e.2)).flatten ++ T)))) := by
    show (entryEncs ((k0, v0) :: rest)).flatten ++ T = _
    rw [henc, List.flatten_cons, entryEnc_nil]
    simp [List.append_assoc]
  unfold SinkBlockIter.fromBlock SinkBlockIter.next
  simp only []
  rw [if_neg (by rw [hofflen]; omega)]
  rw [if_pos (show ([] : List Nat).length = 0 from rfl)]
  rw [hdata, blockHeaderDeserialize_take _ _ _ (by omega) hk0len,
    drop4_be16_be16]
  rw [List.take_left' rfl]
  simp only [iterAt, List.getD_cons_zero]
  simp [henc]

/-- `value()` at entry `j` deserializes exactly that entry's value bytes,
recovering the pushed `ValueMeta` when its meta bytes fit in a `u8`. -/
theorem iterAt_value (k0 : List Nat) (v0 : ValueMeta)
    (rest : List (List Nat × ValueMeta)) (T : List Nat) (j : Nat)
    (hk0 : k0 ≠ [])
    (hj : j < ((k0, v0) :: rest).length)
    (hvm : (((k0, v0) :: rest).getD j dEntry).2.meta < 256)
    (hvu : (((k0, v0) :: rest).getD j dEntry).2.userMeta < 256) :
    (iterAt ((k0, v0) :: rest) T j).value
      = some ((((k0, v0) :: rest).getD j dEntry).2) := by
  have hofflen : (blockOf ((k0, v0) :: rest) T).entryOffsets.length
      = rest.length + 1 := by
    simp [blockOf, sumsFrom_length, entryEncs_length]
  have hoffj : (blockOf ((k0, v0) :: rest) T).entryOffsets.getD j 0
      = sumTo ((k0, v0) :: rest) j := blockOf_getD_offsets _ _ _ hj
  simp only [iterAt, List.getD_cons_zero]
  unfold SinkBlockIter.value
  simp only []
  have hend : (if j + 1 = (blockOf ((k0, v0) :: rest) T).entryOffsets.length
        then (blockOf ((k0, v0) :: rest) T).entriesIndexStart
        else (blockOf ((k0, v0) :: rest) T).entryOffsets.getD (j + 1) 0)
      = sumTo ((k0, v0) :: rest) (j + 1) := by
    by_cases hlast : j + 1 = (blockOf ((k0, v0) :: rest) T).entryOffsets.length
    · rw [if_pos hlast]
      have hjl : j + 1 = (entryEncs ((k0, v0) :: rest)).length := by
        rw [entryEncs_length]
        rw [hofflen] at hlast
        simpa using hlast
      show (entryEncs ((k0, v0) :: rest)).flatten.length = _
      rw [hjl, sumTo_full]
    · rw [if_neg hlast]
      refine blockOf_getD_offsets _ _ _ ?_
      rw [hofflen] at hlast
      simp only [List.length_cons]
      simp only [List.length_cons] at hj
      omega
  rw [hend, hoffj]
  have hsplit : (blockOf ((k0, v0) :: rest) T).data.drop
        (sumTo ((k0, v0) :: rest) j + HEADER_SIZE
          + ((((k0, v0) :: rest).getD j dEntry).1.length
            - if j = 0 then 0 else diffBaseKey k0 (((k0, v0) :: rest).getD j dEntry).1))
      = (((k0, v0) :: rest).getD j dEntry).2.serialize
          ++ (((entryEncs ((k0, v0) :: rest)).drop (j + 1)).flatten ++ T) := by
    have h1 : (blockOf ((k0, v0) :: rest) T).data.drop
          (sumTo ((k0, v0) :: rest) j + HEADER_SIZE
            + ((((k0, v0) :: rest).getD j dEntry).1.length
              - if j = 0 then 0 else diffBaseKey k0 (((k0, v0) :: rest).getD j dEntry).1))
        = (((blockOf ((k0, v0) :: rest) T).data.drop
            (sumTo ((k0, v0) :: rest) j)).drop HEADER_SIZE).drop
            ((((k0, v0) :: rest).getD j dEntry).1.length
              - if j = 0 then 0 else diffBaseKey k0 (((k0, v0) :: rest).getD j dEntry).1) := by
      rw [List.drop_drop, List.drop_drop]
      congr 1
      omega
    rw [h1, blockOf_drop_entry k0 v0 rest T j hk0 hj, drop4_be16_be16,
      List.drop_left' (by simp)]
  rw [hsplit]
  have harith : sumTo ((k0, v0) :: rest) (j + 1)
        - (sumTo ((k0, v0) :: rest) j + HEADER_SIZE
          + ((((k0, v0) :: rest).getD j dEntry).1.length
            - if j = 0 then 0 else diffBaseKey k0 (((k0, v0) :: rest).getD j dEntry).1))
      = (((k0, v0) :: rest).getD j dEntry).2.serialize.length := by
    rw [sumTo_succ _ _ hj, entryEncs_getD_length k0 v0 rest j hk0 hj]
    omega
  rw [harith, List.take_left]
  simp only [ValueMeta.serialize, ValueMeta.deserialize, Option.some.injEq]
  rw [Nat.mod_eq_of_lt hvm, Nat.mod_eq_of_lt hvu]

/-- Driving the iterator from entry `j` to the end collects exactly the
remaining entries, keys and values, in order. -/
theorem iterAt_collect (k0 : List Nat) (v0 : ValueMeta)
    (rest : List (List Nat × ValueMeta)) (T : List Nat)
    (hk0 : k0 ≠ [])
    (hklen : ∀ e ∈ (k0, v0) :: rest, e.1.length < 65536)
    (hvm : ∀ e ∈ (k0, v0) :: rest, e.2.meta < 256 ∧ e.2.userMeta < 256) :
    ∀ m j, j + m = ((k0, v0) :: rest).length →
      (iterAt ((k0, v0) :: rest) T j).collect m
        = (((k0, v0) :: rest).drop (j + 1)).map (fun e => (e.1, some e.2)) := by
  intro m
  induction m with
  | zero =>
    intro j hjm
    have : ((k0, v0) :: rest).drop (j + 1) = [] := by
      apply List.drop_eq_nil_of_le
      omega
    rw [this]
    rfl
  | succ m ih =>
    intro j hjm
    by_cases hstop : j + 1 = ((k0, v0) :: rest).length
    · have hdrop : ((k0, v0) :: rest).drop (j + 1) = [] := by
        apply List.drop_eq_nil_of_le
        omega
      unfold SinkBlockIter.collect
      rw [iterAt_next_stop k0 v0 rest T j hstop, hdrop]
      rfl
    · have hjlt : j + 1 < ((k0, v0) :: rest).length := by
        have : j + 1 ≤ ((k0, v0) :: rest).length := by omega
        omega
      have hmem1 : ((k0, v0) :: rest).getD (j + 1) dEntry ∈ (k0, v0) :: rest := by
        rw [List.getD_eq_getElem _ _ hjlt]
        exact List.getElem_mem _
      unfold SinkBlockIter.collect
      rw [iterAt_next_step k0 v0 rest T j hk0 hklen hjlt]
      simp only []
      rw [iterAt_value k0 v0 rest T (j + 1) hk0 hjlt
        (hvm _ hmem1).1 (hvm _ hmem1).2]
      rw [ih (j + 1) (by omega)]
      have hdropc : ((k0, v0) :: rest).drop (j + 1)
          = ((k0, v0) :: rest).getD (j + 1) dEntry
              :: ((k0, v0) :: rest).drop (j + 1 + 1) := by
        rw [List.drop_eq_getElem_cons hjlt, List.getD_eq_getElem _ _ hjlt]
      rw [hdropc, List.map_cons]
      rfl

/-- `finish_block` output is the entry data followed by a tail (offset
table, entry count, checksum record and its length). -/
theorem finishBlock_eq_data_append (b : BackendBlock) :
    b.finishBlock = b.data ++ (vecU32ToBytes b.entryOffsets
      ++ (be32 b.entryOffsets.length
      ++ (checksumRecord (b.data ++ vecU32ToBytes b.entryOffsets
            ++ be32 b.entryOffsets.length)
      ++ be32 (checksumRecord (b.data ++ vecU32ToBytes b.entryOffsets
            ++ be32 b.entryOffsets.length)).length))) := by
  unfold BackendBlock.finishBlock
  simp [List.append_assoc]

/-- C4: building a block from a non-empty entry sequence (`push_entry` for
each pair then `finish_block`), decoding it, and iterating it forward with
`SinkBlockIter` yields exactly the original keys and values in order, each
key reconstructed from the base-key overlap plus the stored diff bytes
(compression and encryption off). Side conditions are the machine-width
invariants of the source types: keys are non-empty and shorter than 2^16
(`u16` header fields), the meta bytes fit in a `u8`, and the block byte
count and entry count fit in a `u32`. -/
theorem block_roundtrip (k0 : List Nat) (v0 : ValueMeta)
    (rest : List (List Nat × ValueMeta))
    (hkeys : ∀ e ∈ (k0, v0) :: rest, e.1 ≠ [] ∧ e.1.length < 65536)
    (hvals : ∀ e ∈ (k0, v0) :: rest, e.2.meta < 256 ∧ e.2.userMeta < 256)
    (hdata : (buildBackendBlock ((k0, v0) :: rest)).data.length < 4294967296)
    (hcnt : rest.length + 1 < 4294967296) :
    ∃ blk, buildBlock ((k0, v0) :: rest) = some blk ∧
      (SinkBlockIter.fromBlock blk).collect (rest.length + 2)
        = ((k0, v0) :: rest).map (fun e => (e.1, some e.2)) := by
  have hk0 : k0 ≠ [] := (hkeys (k0, v0) (List.mem_cons_self _ _)).1
  have hk0len : k0.length < 65536 := (hkeys (k0, v0) (List.mem_cons_self _ _)).2
  have hklen : ∀ e ∈ (k0, v0) :: rest, e.1.length < 65536 :=
    fun e he => (hkeys e he).2
  have hb := buildBackendBlock_spec k0 v0 rest hk0
  have hoffbound : ∀ x ∈ (buildBackendBlock ((k0, v0) :: rest)).entryOffsets,
      x < 4294967296 := by
    intro x hx
    rw [hb] at hx
    have hle := sumsFrom_mem_le _ _ _ hx
    have hsum : ((entryEncs ((k0, v0) :: rest)).map List.length).sum
        = (entryEncs ((k0, v0) :: rest)).flatten.length := by
      rw [List.length_flatten]
    rw [hb] at hdata
    simp only at hdata
    omega
  have hcntbound : (buildBackendBlock ((k0, v0) :: rest)).entryOffsets.length
      < 4294967296 := by
    rw [hb]
    simp only
    rw [sumsFrom_length, List.length_map, entryEncs_length]
    simpa using hcnt
  have hdec := blockDecode_finishBlock (buildBackendBlock ((k0, v0) :: rest))
    hoffbound hcntbound
  obtain ⟨TT, hfin⟩ : ∃ TT, (buildBackendBlock ((k0, v0) :: rest)).finishBlock
      = (entryEncs ((k0, v0) :: rest)).flatten ++ TT := by
    refine ⟨vecU32ToBytes
        (sumsFrom 0 (List.map List.length (entryEncs ((k0, v0) :: rest))))
      ++ (be32 (sumsFrom 0
            (List.map List.length (entryEncs ((k0, v0) :: rest)))).length
      ++ (checksumRecord ((entryEncs ((k0, v0) :: rest)).flatten
            ++ vecU32ToBytes (sumsFrom 0
                (List.map List.length (entryEncs ((k0, v0) :: rest))))
            ++ be32 (sumsFrom 0
                (List.map List.length (entryEncs ((k0, v0) :: rest)))).length)
      ++ be32 (checksumRecord ((entryEncs ((k0, v0) :: rest)).flatten
            ++ vecU32ToBytes (sumsFrom 0
                (List.map List.length (entryEncs ((k0, v0) :: rest))))
            ++ be32 (sumsFrom 0
                (List.map List.length
                  (entryEncs ((k0, v0) :: rest)))).length)).length)), ?_⟩
    rw [finishBlock_eq_data_append (buildBackendBlock ((k0, v0) :: rest)), hb]
  have hblockOf : buildBlock ((k0, v0) :: rest)
      = some (blockOf ((k0, v0) :: rest) TT) := by
    show blockDecode (buildBackendBlock ((k0, v0) :: rest)).finishBlock = _
    rw [hdec, hfin, hb]
    rfl
  refine ⟨blockOf ((k0, v0) :: rest) TT, hblockOf, ?_⟩
  show (SinkBlockIter.fromBlock
      (blockOf ((k0, v0) :: rest) TT)).collect (rest.length + 1 + 1) = _
  unfold SinkBlockIter.collect
  rw [iterAt_next_init k0 v0 rest TT hk0len]
  simp only []
  rw [iterAt_value k0 v0 rest TT 0 hk0 (by simp)
    (hvals _ (List.mem_cons_self _ _)).1 (hvals _ (List.mem_cons_self _ _)).2]
  rw [iterAt_collect k0 v0 rest TT hk0 hklen hvals (rest.length + 1) 0 (by simp)]
  simp only [iterAt, List.getD_cons_zero]
  rfl

theorem block_roundtrip_witness :
    ∃ blk, buildBlock [([1], ⟨0, 0, [7]⟩), ([1, 2], ⟨1, 2, [8, 9]⟩)]
        = some blk ∧
      (SinkBlockIter.fromBlock blk).collect 3
        = [([1], some ⟨0, 0, [7]⟩), ([1, 2], some ⟨1, 2, [8, 9]⟩)] :=
  block_roundtrip [1] ⟨0, 0, [7]⟩ [([1, 2], ⟨1, 2, [8, 9]⟩)]
    (by decide) (by decide) (by decide) (by decide)
